import Mathlib

/-!
Verification of the study-plan composer engine (src/js/logic.js, class
PlanManager) against its natural-language specification.

The JavaScript class is shallowly embedded: the mutable object becomes a
record threaded explicitly, JS arrays become lists, JS strings become Lean
strings, and the handful of JS string primitives the code uses
(toLowerCase, startsWith, includes, split, trim, replace-first, parseInt)
are modelled by executable character-list functions below.

Modelling conventions, stated once here:
* A missing or null JS string field (exam.availability, exam.rawTable) is
  modelled as the empty string: the code only tests such fields for
  falsiness (where undefined, null and the empty string coincide) or after
  a truthiness guard.
* A JS null exam back-reference (item.examId) is an Option.
* Numeric credit values are naturals: the catalog loader produces integer
  CFU values (default 6) and the engine only adds and compares them.
* parseInt is modelled for decimal strings with optional sign and leading
  whitespace; the JS hexadecimal prefix special case is not modelled, as
  the only inputs are academic-year tokens.
* A thrown JS exception is modelled by an Option-valued result (none =
  throw) where a claim depends on it (validate); in rebalanceBuckets and
  moveExam the lookup of a non-custom item's catalog exam yields, when the
  exam is absent, an empty allowed-table list in this model whereas the JS
  code would throw; states containing such dangling references are not
  produced by the reachable-state relation used by the theorems (addExam
  steps only add catalog exams, and migratePlan drops dangling entries).
* addCustomExam generates its entry id from Date.now(); the clock value is
  an explicit parameter.
* Localized messages are produced by the external translation function t;
  they are modelled structurally as an inductive type recording the
  message key and its interpolated parameters.
-/

namespace StudyPlan

/-! ## JS string primitives, on character lists -/

/-- Model of JS String.prototype.split restricted to a single-character
separator: splits into the (possibly empty) fragments between occurrences. -/
def splitOnChar (sep : Char) : List Char → List (List Char)
  | [] => [[]]
  | c :: rest =>
    match splitOnChar sep rest with
    | [] => if c == sep then [[], []] else [[c]]
    | h :: t => if c == sep then [] :: h :: t else (c :: h) :: t

/-- Fragments of a string between occurrences of a separator character,
as strings; models s.split(sep) for a one-character sep. -/
def jsSplit (s : String) (sep : Char) : List String :=
  (splitOnChar sep s.data).map (fun l => ⟨l⟩)

/-- Model of s.split(sep)[0]: the characters before the first separator. -/
def beforeChar (sep : Char) (s : String) : String :=
  ⟨s.data.takeWhile (fun c => !(c == sep))⟩

/-- Model of JS String.prototype.trim (whitespace approximated by
Char.isWhitespace). -/
def jsTrim (s : String) : String :=
  ⟨((s.data.dropWhile Char.isWhitespace).reverse.dropWhile Char.isWhitespace).reverse⟩

/-- Model of JS toLowerCase (ASCII letters; the keywords compared against
are ASCII). -/
def lowerStr (s : String) : String :=
  ⟨s.data.map Char.toLower⟩

/-- Model of JS String.prototype.startsWith. -/
def jsStartsWith (s pre : String) : Bool :=
  pre.data.isPrefixOf s.data

/-- Does the character list sub occur contiguously inside s? -/
def listContainsSub (sub : List Char) : List Char → Bool
  | [] => sub.isPrefixOf []
  | c :: t => sub.isPrefixOf (c :: t) || listContainsSub sub t

/-- Model of JS String.prototype.includes. -/
def jsIncludes (s sub : String) : Bool :=
  listContainsSub sub.data s.data

/-- Replace the first occurrence of pat in the list (JS
String.prototype.replace with a string pattern). -/
def replaceFirstChars (pat rep : List Char) : List Char → List Char
  | [] => if pat.isPrefixOf ([] : List Char) then rep else []
  | c :: t =>
    if pat.isPrefixOf (c :: t) then rep ++ (c :: t).drop pat.length
    else c :: replaceFirstChars pat rep t

/-- Model of s.replace(pat, rep) (first occurrence only, as in JS with a
string pattern). -/
def jsReplaceFirst (s pat rep : String) : String :=
  ⟨replaceFirstChars pat.data rep.data s.data⟩

/-- Numeric value of a digit run. -/
def digitsVal (l : List Char) : Nat :=
  l.foldl (fun acc c => acc * 10 + (c.toNat - 48)) 0

/-- Leading decimal-digit run of a character list, if nonempty. -/
def parseDigits (l : List Char) : Option Nat :=
  let ds := l.takeWhile Char.isDigit
  if ds.isEmpty then none else some (digitsVal ds)

/-- Model of JS parseInt on decimal inputs: skip leading whitespace, an
optional sign, then the longest digit run; none models NaN. -/
def parseIntJS (s : String) : Option Int :=
  match s.data.dropWhile Char.isWhitespace with
  | '-' :: rest => (parseDigits rest).map (fun n => -(n : Int))
  | '+' :: rest => (parseDigits rest).map (fun n => (n : Int))
  | l => (parseDigits l).map (fun n => (n : Int))

/-- JS comparison a >= b where either operand may be NaN (none): any
comparison against NaN is false. -/
def jsGE (a b : Option Int) : Bool :=
  match a, b with
  | some x, some y => decide (y ≤ x)
  | _, _ => false

/-- JS test n % 2 === 0 where n may be NaN (none): false on NaN.
Int.tmod matches the sign behaviour of the JS remainder operator. -/
def jsIsEvenNum (a : Option Int) : Bool :=
  match a with
  | some n => n.tmod 2 == 0
  | none => false

/-! ## Data model -/

/-- Catalog exam descriptor (the fields logic.js reads; display-only
fields such as period, pillar and link are omitted). A missing
availability or rawTable is the empty string. -/
structure Exam where
  id : String
  name : String
  cfu : Nat
  rawTable : String
  availability : String
deriving Repr, DecidableEq

/-- A plan entry as created by addExam / addCustomExam / initDefaults. -/
structure PlanItem where
  id : String
  examId : Option String
  name : String
  cfu : Nat
  table : String
  isCustom : Bool
deriving Repr, DecidableEq

/-- One configured mandatory exam (common_rules.mandatory_exams element). -/
structure MandatoryExam where
  name : String
  credits : Nat
deriving Repr, DecidableEq

/-- common_rules of the requirements document. -/
structure CommonRules where
  mandatory_exams : List MandatoryExam
  free_exams_credits : Nat
  total_credits : Nat

/-- One element of a curriculum_rules list. In the JS rules document a
rule carries either min_credits or min_sumBC_credits depending on its
source tag; both fields are materialized here, the unused one being
irrelevant to the code paths that read the rule. -/
structure ProgRule where
  source : String
  min_credits : Nat := 0
  min_sumBC_credits : Nat := 0
deriving Repr, DecidableEq

/-- programs[curriculum] of the requirements document. -/
structure Program where
  curriculum_rules : List ProgRule

/-- degree_requirements of the requirements document. The programs table
is modelled as a total map from curriculum token to program; the JS code
indexes it directly and would throw on a curriculum with no program, so
every curriculum token used in a theorem is implicitly one the document
covers. -/
structure DegreeRequirements where
  common_rules : CommonRules
  programs : String → Program

/-- The rules object handed to the PlanManager constructor. -/
structure Rules where
  degree_requirements : DegreeRequirements

/-- The PlanManager state: constructor fields of the JS class. The
translation function t is not part of the state model; messages are
represented structurally. -/
structure PlanManager where
  allExams : List Exam
  rules : Rules
  year : String
  curriculum : String
  plan : List PlanItem

/-- The state built by the PlanManager constructor. -/
def initialPM (exams : List Exam) (rules : Rules) : PlanManager :=
  { allExams := exams, rules := rules, year := "2025/2026", curriculum := "FBA", plan := [] }

/-! ## Availability and table helpers (logic.js lines 74-134) -/

/-- Fixed F94 ordering priority (A before B before C); the default branch
is never reached because inputs are pre-filtered to A, B, C. -/
def f94Priority : String → Nat
  | "A" => 1
  | "B" => 2
  | "C" => 3
  | _ => 0

/-- getAllowedTables: split the raw table tag on the pipe, trim, then
keep tokens of the active curriculum's set; non-FBA curricula use the
A/B/C branch with the fixed priority sort (JS Array.prototype.sort is
stable; insertion sort is the stable sort). -/
def getAllowedTables (curriculum : String) (exam : Exam) : List String :=
  let raw := exam.rawTable
  let parts := (jsSplit raw '|').map jsTrim
  if curriculum == "FBA" then
    parts.filter (fun p => ["1", "2"].contains p)
  else
    let allowed := parts.filter (fun p => ["A", "B", "C"].contains p)
    List.insertionSort (fun a b => f94Priority a ≤ f94Priority b) allowed

/-- isExamAvailable (logic.js lines 92-111). -/
def isExamAvailable (pm : PlanManager) (exam : Exam) : Bool :=
  let avail := exam.availability
  if avail == "" || lowerStr avail == "enabled" then true
  else if lowerStr avail == "disabled" then false
  else if jsStartsWith avail "From " then
    let fromYear := jsTrim (jsReplaceFirst avail "From " "")
    let currentStart := parseIntJS (beforeChar '/' pm.year)
    let fromStart := parseIntJS (beforeChar '/' fromYear)
    jsGE currentStart fromStart
  else if jsIncludes avail "Biennial" then
    let currentStart := parseIntJS (beforeChar '/' pm.year)
    let isEvenYear := jsIsEvenNum currentStart
    if jsIncludes avail "Even" then isEvenYear
    else if jsIncludes avail "Odd" then !isEvenYear
    else true
  else true

/-- Structural model of the localized strings getNextAvailabilityInfo can
produce: the available_from template with its date parameter, the two
fixed next-activation messages, and the raw availability string
pass-through. -/
inductive AvailInfo where
  | availableFrom (date : String)
  | nextActivationEven
  | nextActivationOdd
  | raw (s : String)
deriving Repr, DecidableEq

/-- getNextAvailabilityInfo (logic.js lines 118-134); none models the JS
null return. -/
def getNextAvailabilityInfo (pm : PlanManager) (exam : Exam) : Option AvailInfo :=
  let avail := exam.availability
  if avail == "" || lowerStr avail == "enabled" then none
  else if jsStartsWith avail "From " then
    some (AvailInfo.availableFrom (jsReplaceFirst avail "From " ""))
  else if jsIncludes avail "Biennial" then
    let currentStart := parseIntJS (beforeChar '/' pm.year)
    let isEvenYear := jsIsEvenNum currentStart
    if jsIncludes avail "Even" && !isEvenYear then some AvailInfo.nextActivationEven
    else if jsIncludes avail "Odd" && isEvenYear then some AvailInfo.nextActivationOdd
    else some (AvailInfo.raw avail)
  else some (AvailInfo.raw avail)

/-! ## The bucket-assignment algorithm (logic.js lines 222-292) -/

/-- Sum of credits of a list of entries
(JS reduce((s, p) => s + p.cfu, 0)). -/
def sumCfu (l : List PlanItem) : Nat :=
  l.foldl (fun s p => s + p.cfu) 0

/-- Credits already placed in table t among the entries of l. -/
def tableSum (l : List PlanItem) (t : String) : Nat :=
  sumCfu (l.filter (fun p => p.table == t))

/-- Combined credits of tables B and C among the entries of l. -/
def bcSum (l : List PlanItem) : Nat :=
  sumCfu (l.filter (fun p => p.table == "B" || p.table == "C"))

/-- The curriculum_rules list of the active curriculum. -/
def curriculumRules (pm : PlanManager) : List ProgRule :=
  (pm.rules.degree_requirements.programs pm.curriculum).curriculum_rules

/-- The limits map built by rebalanceBuckets: last non-BC rule for a
source wins, and limits[t] || 0 reads 0 for an absent table. -/
def limitOf (rs : List ProgRule) (t : String) : Nat :=
  rs.foldl (fun acc r => if r.source == "BC" then acc else if r.source == t then r.min_credits else acc) 0

/-- The minSumBC value built by rebalanceBuckets: last BC rule wins,
0 when there is none. -/
def minSumBCOf (rs : List ProgRule) : Nat :=
  rs.foldl (fun acc r => if r.source == "BC" then r.min_sumBC_credits else acc) 0

/-- Catalog lookup for a plan entry's back-reference
(this.allExams.find(e => e.id === item.examId)). -/
def examOf (pm : PlanManager) (item : PlanItem) : Option Exam :=
  pm.allExams.find? (fun e => item.examId == some e.id)

/-- Allowed tables of an entry inside rebalanceBuckets: empty for custom
entries, otherwise getAllowedTables of its catalog exam. A dangling
back-reference yields the empty list here where the JS code would throw;
see the module docstring. -/
def allowedOf (pm : PlanManager) (item : PlanItem) : List String :=
  if item.isCustom then []
  else
    match examOf pm item with
    | some exam => getAllowedTables pm.curriculum exam
    | none => []

/-- One iteration of the rebalanceBuckets loop body: given the output
list built so far (newPlan), pick the entry's table. The first allowed
table whose already-placed credits are under its minimum, or which is B
or C while the running B+C sum is under the aggregate minimum, wins;
otherwise Facoltativi while under the free-credit target, otherwise
Fuori Piano. -/
def placePred (limits : String → Nat) (minSumBC : Nat) (acc : List PlanItem)
    (t : String) : Bool :=
  decide (tableSum acc t < limits t) ||
    ((t == "B" || t == "C") && decide (bcSum acc < minSumBC))

def placeOne (pm : PlanManager) (limits : String → Nat) (minSumBC freeLimit : Nat)
    (acc : List PlanItem) (item : PlanItem) : PlanItem :=
  match (allowedOf pm item).find? (placePred limits minSumBC acc) with
  | some t => { item with table := t }
  | none =>
    if tableSum acc "Facoltativi" < freeLimit then { item with table := "Facoltativi" }
    else { item with table := "Fuori Piano" }

/-- The activeExams.forEach loop: each processed entry is appended to the
output list, which later entries observe. -/
def placeActives (pm : PlanManager) (limits : String → Nat) (minSumBC freeLimit : Nat) :
    List PlanItem → List PlanItem → List PlanItem
  | acc, [] => acc
  | acc, item :: rest =>
      placeActives pm limits minSumBC freeLimit
        (acc ++ [placeOne pm limits minSumBC freeLimit acc item]) rest

/-- rebalanceBuckets: mandatory entries are copied through first, then
every other entry is reassigned by the greedy left-to-right pass. -/
def rebalanceBuckets (pm : PlanManager) : PlanManager :=
  let rs := curriculumRules pm
  let freeLimit := pm.rules.degree_requirements.common_rules.free_exams_credits
  let mandatoryItems := pm.plan.filter (fun p => p.table == "Obbligatori")
  let activeExams := pm.plan.filter (fun p => !(p.table == "Obbligatori"))
  { pm with plan := placeActives pm (limitOf rs) (minSumBCOf rs) freeLimit mandatoryItems activeExams }

/-! ## Engine operations (logic.js lines 25-216 and 383-409) -/

/-- setYear: replaces the year token only. -/
def setYear (pm : PlanManager) (year : String) : PlanManager :=
  { pm with year := year }

/-- migratePlan's per-entry treatment: mandatory and custom entries kept
unchanged, dangling entries dropped, catalog entries moved to their first
allowed table under the new curriculum, or Facoltativi when none. -/
def migrateItem (pm : PlanManager) (item : PlanItem) : Option PlanItem :=
  if item.table == "Obbligatori" then some item
  else if item.isCustom then some item
  else
    match examOf pm item with
    | none => none
    | some exam =>
      match getAllowedTables pm.curriculum exam with
      | t :: _ => some { item with table := t }
      | [] => some { item with table := "Facoltativi" }

/-- migratePlan: rebuild the plan entry by entry, then rebalance. -/
def migratePlan (pm : PlanManager) : PlanManager :=
  rebalanceBuckets { pm with plan := pm.plan.filterMap (migrateItem pm) }

/-- setCurriculum: replace the curriculum and migrate. -/
def setCurriculum (pm : PlanManager) (curriculum : String) : PlanManager :=
  migratePlan { pm with curriculum := curriculum }

/-- The default table of addExam when no target is given (or the given
target is falsy): first allowed table, else Facoltativi. -/
def defaultTableFor (pm : PlanManager) (exam : Exam) : String :=
  match getAllowedTables pm.curriculum exam with
  | t :: _ => t
  | [] => "Facoltativi"

/-- The table addExam stores before rebalancing: the target table when
the argument is present and nonempty (JS truthiness), else the default. -/
def addExamTable (pm : PlanManager) (exam : Exam) (targetTable : Option String) : String :=
  match targetTable with
  | some tt => if tt == "" then defaultTableFor pm exam else tt
  | none => defaultTableFor pm exam

/-- addExam: rejected when an entry already references the exam id;
otherwise the new entry is appended and buckets are rebalanced. Returns
the JS boolean result. -/
def addExam (pm : PlanManager) (exam : Exam) (targetTable : Option String) :
    PlanManager × Bool :=
  if pm.plan.any (fun p => p.examId == some exam.id) then (pm, false)
  else
    let item : PlanItem :=
      { id := exam.id, examId := some exam.id, name := exam.name,
        cfu := exam.cfu, table := addExamTable pm exam targetTable, isCustom := false }
    (rebalanceBuckets { pm with plan := pm.plan ++ [item] }, true)

/-- addCustomExam: always appends a custom entry whose id is derived from
the clock (the now parameter models Date.now()), then rebalances. The
cfu argument is the already-parsed integer. -/
def addCustomExam (pm : PlanManager) (name : String) (cfu : Nat) (table : String)
    (now : Nat) : PlanManager :=
  rebalanceBuckets
    { pm with plan := pm.plan ++
        [{ id := "custom-" ++ toString now, examId := none, name := name,
           cfu := cfu, table := table, isCustom := true }] }

/-- removeExam: no-op when the first entry with the id is in the
Obbligatori table; otherwise every entry with the id is filtered out and
buckets are rebalanced (also when the id matches nothing). -/
def removeExam (pm : PlanManager) (planItemId : String) : PlanManager :=
  match pm.plan.find? (fun p => p.id == planItemId) with
  | some item =>
    if item.table == "Obbligatori" then pm
    else rebalanceBuckets { pm with plan := pm.plan.filter (fun p => !(p.id == planItemId)) }
  | none => rebalanceBuckets { pm with plan := pm.plan.filter (fun p => !(p.id == planItemId)) }

/-- Retable the first entry carrying the given id (the JS code mutates
the object found by find). -/
def updateFirstTable : List PlanItem → String → String → List PlanItem
  | [], _, _ => []
  | p :: rest, id, tbl =>
    if p.id == id then { p with table := tbl } :: rest
    else p :: updateFirstTable rest id tbl

/-- moveExam: a non-custom entry moved to a curriculum table must have
the destination among its allowed tables, else the move fails; custom
entries and moves to Facoltativi / Obbligatori / Fuori Piano are
unconditional. On the non-failing path the entry (when found) is
retabled and buckets are rebalanced, returning true. -/
def moveExam (pm : PlanManager) (planItemId newTable : String) : PlanManager × Bool :=
  match pm.plan.find? (fun p => p.id == planItemId) with
  | some item =>
    if !item.isCustom && !(newTable == "Facoltativi") && !(newTable == "Obbligatori")
        && !(newTable == "Fuori Piano") then
      let allowed :=
        match examOf pm item with
        | some exam => getAllowedTables pm.curriculum exam
        | none => []
      if !(allowed.contains newTable) then (pm, false)
      else (rebalanceBuckets { pm with plan := updateFirstTable pm.plan planItemId newTable }, true)
    else (rebalanceBuckets { pm with plan := updateFirstTable pm.plan planItemId newTable }, true)
  | none => (rebalanceBuckets pm, true)

/-- Lowercase a name and collapse every whitespace run to one hyphen
(name.toLowerCase().replace(whitespace-runs, "-")), used by initDefaults
for deterministic ids. -/
def slugAux : Bool → List Char → List Char
  | _, [] => []
  | prevWs, c :: rest =>
    if c.isWhitespace then
      if prevWs then slugAux true rest else '-' :: slugAux true rest
    else c.toLower :: slugAux false rest

/-- Deterministic id of a configured mandatory exam. -/
def slugId (name : String) : String :=
  ⟨slugAux false name.data⟩

/-- initDefaults: one custom, mandatory-table entry per configured
mandatory exam, then rebalance. -/
def initDefaults (pm : PlanManager) : PlanManager :=
  rebalanceBuckets
    { pm with plan := pm.plan ++
        (pm.rules.degree_requirements.common_rules.mandatory_exams.map (fun ex =>
          { id := slugId ex.name, examId := none, name := ex.name,
            cfu := ex.credits, table := "Obbligatori", isCustom := true })) }

/-- reset: empty the plan and re-create the defaults. -/
def reset (pm : PlanManager) : PlanManager :=
  initDefaults { pm with plan := [] }

/-! ## Validation (logic.js lines 298-381) -/

/-- One per-table `current`/min pair of the report. -/
structure TableStat where
  current : Nat
  min : Nat
deriving Repr, DecidableEq

/-- One specialRules element: the running aggregate value against its
minimum (its label is the constant sum_bc_label translation). -/
structure BCStat where
  current : Nat
  min : Nat
deriving Repr, DecidableEq

/-- Structural model of the localized failure messages validate can push,
with their interpolated parameters. -/
inductive Msg where
  | sumBCMissing (missing : Nat)
  | tableMissingCfu (table : String) (missing : Nat)
  | mandatoryIncomplete
  | totalCfuStatus (current min : Nat)
deriving Repr, DecidableEq

/-- The validation report. The tables component keeps the schema order of
its keys. -/
structure Report where
  totalCredits : Nat
  tables : List (String × TableStat)
  specialRules : List BCStat
  isValid : Bool
  messages : List Msg
deriving Repr, DecidableEq

/-- The fixed table schema of a curriculum (every non-FBA curriculum uses
the A/B/C schema, mirroring the else-branches of the JS code). -/
def schemaOf (curriculum : String) : List String :=
  if curriculum == "FBA" then ["Obbligatori", "1", "2", "Facoltativi", "Fuori Piano"]
  else ["Obbligatori", "A", "B", "C", "Facoltativi", "Fuori Piano"]

/-- Lookup of report.tables[t]; none models the undefined JS property. -/
def statOf (tbs : List (String × TableStat)) (t : String) : Option TableStat :=
  (tbs.find? (fun kv => kv.fst == t)).map Prod.snd

/-- In-place update of report.tables[t]. -/
def setStat (tbs : List (String × TableStat)) (t : String) (f : TableStat → TableStat) :
    List (String × TableStat) :=
  tbs.map (fun kv => if kv.fst == t then (kv.fst, f kv.snd) else kv)

/-- The plan.forEach accumulation: grand total (Fuori Piano excluded) and
per-table currents. none models the TypeError the JS code throws when an
entry's table is not a schema key. -/
def tallyPlan : List (String × TableStat) → Nat → List PlanItem →
    Option (Nat × List (String × TableStat))
  | tbs, total, [] => some (total, tbs)
  | tbs, total, item :: rest =>
    match statOf tbs item.table with
    | none => none
    | some _ =>
      let total := if item.table == "Fuori Piano" then total else total + item.cfu
      tallyPlan (setStat tbs item.table (fun s => { s with current := s.current + item.cfu }))
        total rest

/-- The progRules.forEach pass: a BC rule records and checks the B + C
aggregate (none models the TypeError thrown when the schema lacks B or
C), any other rule present in the schema installs its minimum and is
checked; a rule whose source is no schema key is skipped. -/
def applyRules : List (String × TableStat) → List BCStat → Bool → List Msg →
    List ProgRule → Option (List (String × TableStat) × List BCStat × Bool × List Msg)
  | tbs, sp, valid, ms, [] => some (tbs, sp, valid, ms)
  | tbs, sp, valid, ms, rule :: rest =>
    if rule.source == "BC" then
      match statOf tbs "B", statOf tbs "C" with
      | some sb, some sc =>
        let currentBC := sb.current + sc.current
        let sp := sp ++ [{ current := currentBC, min := rule.min_sumBC_credits }]
        if currentBC < rule.min_sumBC_credits then
          applyRules tbs sp false (ms ++ [Msg.sumBCMissing (rule.min_sumBC_credits - currentBC)]) rest
        else applyRules tbs sp valid ms rest
      | _, _ => none
    else
      match statOf tbs rule.source with
      | some st =>
        if st.current < rule.min_credits then
          applyRules (setStat tbs rule.source (fun s => { s with min := rule.min_credits }))
            sp false (ms ++ [Msg.tableMissingCfu rule.source (rule.min_credits - st.current)]) rest
        else
          applyRules (setStat tbs rule.source (fun s => { s with min := rule.min_credits }))
            sp valid ms rest
      | none => applyRules tbs sp valid ms rest

/-- The configured mandatory-credit sum installed as the Obbligatori
minimum. -/
def mandatoryMin (pm : PlanManager) : Nat :=
  pm.rules.degree_requirements.common_rules.mandatory_exams.foldl (fun s e => s + e.credits) 0

/-- The zero-initialized per-table stats over the active schema. -/
def initTables (pm : PlanManager) : List (String × TableStat) :=
  (schemaOf pm.curriculum).map (fun t => (t, ({ current := 0, min := 0 } : TableStat)))

/-- The fixed minimum assignments done before the rule pass: Obbligatori
from the configured mandatory credits, Facoltativi from the flat
free-credit target. -/
def withFixedMins (pm : PlanManager) (tbs1 : List (String × TableStat)) :
    List (String × TableStat) :=
  setStat (setStat tbs1 "Obbligatori" (fun s => { s with min := mandatoryMin pm }))
    "Facoltativi" (fun s => { s with min := pm.rules.degree_requirements.common_rules.free_exams_credits })

/-- The two closing checks of validate: Obbligatori current against its
(possibly rule-overwritten) minimum, then the grand total against the
global target; each failure flips isValid and appends its message. -/
def finalChecks (pm : PlanManager) (totalCredits : Nat) (tbs4 : List (String × TableStat))
    (sp : List BCStat) (valid1 : Bool) (ms1 : List Msg) : Report :=
  let common := pm.rules.degree_requirements.common_rules
  let obb := (statOf tbs4 "Obbligatori").getD { current := 0, min := 0 }
  let valid2 := if obb.current < obb.min then false else valid1
  let ms2 := if obb.current < obb.min then ms1 ++ [Msg.mandatoryIncomplete] else ms1
  let valid3 := if totalCredits < common.total_credits then false else valid2
  let ms3 :=
    if totalCredits < common.total_credits then
      ms2 ++ [Msg.totalCfuStatus totalCredits common.total_credits]
    else ms2
  { totalCredits := totalCredits, tables := tbs4, specialRules := sp,
    isValid := valid3, messages := ms3 }

/-- validate: schema setup, per-table sums, fixed Obbligatori and
Facoltativi minimums, rule pass, then the two closing checks.
none models a thrown TypeError. -/
def validate (pm : PlanManager) : Option Report :=
  match tallyPlan (initTables pm) 0 pm.plan with
  | none => none
  | some (totalCredits, tbs1) =>
    match applyRules (withFixedMins pm tbs1) [] true [] (curriculumRules pm) with
    | none => none
    | some (tbs4, sp, valid1, ms1) =>
      some (finalChecks pm totalCredits tbs4 sp valid1 ms1)

/-- The validate method with the receiver state threaded explicitly: the
method body only reads this.rules, this.curriculum and this.plan and
writes the local report object, so the state component passes through. -/
def validateRun (pm : PlanManager) : PlanManager × Option Report :=
  (pm, validate pm)

/-! ## Reachable engine states -/

/-- One public mutating call on the engine. addExam steps are restricted
to catalog exams, which is how the UI invokes the engine (a non-catalog
argument would leave a dangling back-reference on which the JS
rebalanceBuckets throws). -/
inductive Step (exams : List Exam) : PlanManager → PlanManager → Prop
  | setYear (pm : PlanManager) (y : String) : Step exams pm (setYear pm y)
  | setCurriculum (pm : PlanManager) (c : String) : Step exams pm (setCurriculum pm c)
  | migratePlan (pm : PlanManager) : Step exams pm (migratePlan pm)
  | addExam (pm : PlanManager) (e : Exam) (tt : Option String) (h : e ∈ exams) :
      Step exams pm (addExam pm e tt).fst
  | addCustomExam (pm : PlanManager) (name : String) (cfu : Nat) (table : String) (now : Nat) :
      Step exams pm (addCustomExam pm name cfu table now)
  | removeExam (pm : PlanManager) (id : String) : Step exams pm (removeExam pm id)
  | moveExam (pm : PlanManager) (id nt : String) : Step exams pm (moveExam pm id nt).fst
  | rebalanceBuckets (pm : PlanManager) : Step exams pm (rebalanceBuckets pm)
  | reset (pm : PlanManager) : Step exams pm (reset pm)
  | initDefaults (pm : PlanManager) : Step exams pm (initDefaults pm)

/-- States reachable from the constructor through the public operations. -/
inductive Reachable (exams : List Exam) (rules : Rules) : PlanManager → Prop
  | init : Reachable exams rules (initialPM exams rules)
  | step {pm pm' : PlanManager} :
      Reachable exams rules pm → Step exams pm pm' → Reachable exams rules pm'

/-! ## The specification's wording of the bucket pass (for claim C1) -/

/-- Table chosen for one entry by the specification's wording: scan the
entry's allowed tables in priority order and accept the first whose
already-placed credits (sums) are below its minimum, or which is B or C
while the running aggregate sum (bc) is below the aggregate minimum;
otherwise Facoltativi while the running Facoltativi sum (fac) is below
the free-credit target, otherwise Fuori Piano. -/
def specPred (limits : String → Nat) (minSumBC : Nat) (sums : String → Nat) (bc : Nat)
    (t : String) : Bool :=
  decide (sums t < limits t) || ((t == "B" || t == "C") && decide (bc < minSumBC))

def specChooseTable (pm : PlanManager) (limits : String → Nat) (minSumBC freeLimit : Nat)
    (sums : String → Nat) (bc fac : Nat) (item : PlanItem) : String :=
  match (allowedOf pm item).find? (specPred limits minSumBC sums bc) with
  | some t => t
  | none => if fac < freeLimit then "Facoltativi" else "Fuori Piano"

/-- The specification's sequential pass: process active entries in their
existing order, each one observing the running per-table, aggregate and
Facoltativi sums left by its predecessors. -/
def specGo (pm : PlanManager) (limits : String → Nat) (minSumBC freeLimit : Nat) :
    (String → Nat) → Nat → Nat → List PlanItem → List PlanItem
  | _, _, _, [] => []
  | sums, bc, fac, item :: rest =>
    let t := specChooseTable pm limits minSumBC freeLimit sums bc fac item
    { item with table := t } ::
      specGo pm limits minSumBC freeLimit
        (fun x => if x == t then sums x + item.cfu else sums x)
        (if t == "B" || t == "C" then bc + item.cfu else bc)
        (if t == "Facoltativi" then fac + item.cfu else fac) rest

/-- The specification's rebalance: mandatory entries first and untouched,
then the actives reassigned by the sequential greedy pass, starting from
zero running sums. -/
def specRebalance (pm : PlanManager) : PlanManager :=
  let rs := curriculumRules pm
  let freeLimit := pm.rules.degree_requirements.common_rules.free_exams_credits
  let mandatoryItems := pm.plan.filter (fun p => p.table == "Obbligatori")
  let activeExams := pm.plan.filter (fun p => !(p.table == "Obbligatori"))
  { pm with plan := mandatoryItems ++
      specGo pm (limitOf rs) (minSumBCOf rs) freeLimit (fun _ => 0) 0 0 activeExams }

/-! ## Basic lemmas -/

theorem find?_congr {α : Type} (p q : α → Bool) :
    ∀ l : List α, (∀ a ∈ l, p a = q a) → l.find? p = l.find? q := by
  intro l
  induction l with
  | nil => intro _; rfl
  | cons a t ih =>
    intro h
    simp only [List.find?]
    rw [h a (by simp)]
    cases q a
    · exact ih (fun x hx => h x (by simp [hx]))
    · rfl

theorem sumCfu_aux (l : List PlanItem) :
    ∀ n : Nat, l.foldl (fun s p => s + p.cfu) n = n + sumCfu l := by
  induction l with
  | nil => intro n; simp [sumCfu]
  | cons a t ih =>
    intro n
    simp only [sumCfu, List.foldl] at *
    rw [ih (n + a.cfu), ih (0 + a.cfu)]
    omega

theorem sumCfu_cons (a : PlanItem) (l : List PlanItem) :
    sumCfu (a :: l) = a.cfu + sumCfu l := by
  show List.foldl (fun s p => s + p.cfu) (0 + a.cfu) l = a.cfu + sumCfu l
  rw [sumCfu_aux l (0 + a.cfu)]
  omega

theorem sumCfu_append (l₁ l₂ : List PlanItem) :
    sumCfu (l₁ ++ l₂) = sumCfu l₁ + sumCfu l₂ := by
  induction l₁ with
  | nil => simp [sumCfu]
  | cons a t ih => simp only [List.cons_append, sumCfu_cons, ih]; omega

theorem tableSum_nil (t : String) : tableSum [] t = 0 := rfl

theorem tableSum_append (l₁ l₂ : List PlanItem) (t : String) :
    tableSum (l₁ ++ l₂) t = tableSum l₁ t + tableSum l₂ t := by
  simp [tableSum, List.filter_append, sumCfu_append]

theorem tableSum_cons (a : PlanItem) (l : List PlanItem) (t : String) :
    tableSum (a :: l) t = (if a.table == t then a.cfu else 0) + tableSum l t := by
  by_cases h : a.table == t
  · simp [tableSum, List.filter_cons, h, sumCfu_cons]
  · simp [tableSum, List.filter_cons, h]

theorem tableSum_single (a : PlanItem) (t : String) :
    tableSum [a] t = if a.table == t then a.cfu else 0 := by
  simpa using tableSum_cons a [] t

theorem bcSum_append (l₁ l₂ : List PlanItem) :
    bcSum (l₁ ++ l₂) = bcSum l₁ + bcSum l₂ := by
  simp [bcSum, List.filter_append, sumCfu_append]

theorem bcSum_single (a : PlanItem) :
    bcSum [a] = if a.table == "B" || a.table == "C" then a.cfu else 0 := by
  by_cases h : a.table == "B" || a.table == "C"
  · simp [bcSum, List.filter_cons, h, sumCfu_cons, sumCfu]
  · simp [bcSum, List.filter_cons, h, sumCfu]

theorem tableSum_all_obb (l : List PlanItem) (t : String)
    (hl : ∀ p ∈ l, p.table = "Obbligatori") (ht : ¬ t = "Obbligatori") :
    tableSum l t = 0 := by
  have : l.filter (fun p => p.table == t) = [] := by
    rw [List.filter_eq_nil_iff]
    intro p hp
    have := hl p hp
    simp [this]
    intro hEq
    exact ht hEq.symm
  simp [tableSum, this, sumCfu]

theorem bcSum_all_obb (l : List PlanItem)
    (hl : ∀ p ∈ l, p.table = "Obbligatori") : bcSum l = 0 := by
  have : l.filter (fun p => p.table == "B" || p.table == "C") = [] := by
    rw [List.filter_eq_nil_iff]
    intro p hp
    have := hl p hp
    simp [this]
  simp [bcSum, this, sumCfu]

/-- Two plan entries agreeing on all fields except possibly the table. -/
def SameCore (a b : PlanItem) : Prop :=
  a.id = b.id ∧ a.examId = b.examId ∧ a.name = b.name ∧ a.cfu = b.cfu ∧ a.isCustom = b.isCustom

theorem sameCore_refl (a : PlanItem) : SameCore a a :=
  ⟨rfl, rfl, rfl, rfl, rfl⟩

theorem planItem_eq_of_core (a b : PlanItem) (h : SameCore a b) (ht : a.table = b.table) :
    a = b := by
  obtain ⟨h1, h2, h3, h4, h5⟩ := h
  cases a; cases b; simp_all

theorem pm_eq_of_fields (p q : PlanManager)
    (h1 : p.allExams = q.allExams) (h2 : p.rules = q.rules) (h3 : p.year = q.year)
    (h4 : p.curriculum = q.curriculum) (h5 : p.plan = q.plan) : p = q := by
  cases p; cases q; simp_all

/-! ## Facts about getAllowedTables and placement targets -/

theorem mem_getAllowedTables {t : String} {c : String} {e : Exam}
    (h : t ∈ getAllowedTables c e) :
    t = "1" ∨ t = "2" ∨ t = "A" ∨ t = "B" ∨ t = "C" := by
  unfold getAllowedTables at h
  by_cases hc : (c == "FBA") = true
  · simp only [hc, if_true] at h
    have := (List.mem_filter.mp h).2
    simp at this
    rcases this with h1 | h2
    · exact Or.inl h1
    · exact Or.inr (Or.inl h2)
  · simp only [hc, if_false] at h
    have hm := (List.perm_insertionSort
      (fun a b => f94Priority a ≤ f94Priority b) _).mem_iff.mp h
    have := (List.mem_filter.mp hm).2
    simp at this
    rcases this with h1 | h2 | h3
    · exact Or.inr (Or.inr (Or.inl h1))
    · exact Or.inr (Or.inr (Or.inr (Or.inl h2)))
    · exact Or.inr (Or.inr (Or.inr (Or.inr h3)))

theorem not_obb_mem_getAllowedTables {c : String} {e : Exam} :
    ¬ ("Obbligatori" ∈ getAllowedTables c e) := by
  intro h
  rcases mem_getAllowedTables h with h1 | h2 | h3 | h4 | h5 <;> simp_all

theorem mem_schema_of_allowed {t c : String} {e : Exam}
    (h : t ∈ getAllowedTables c e) : t ∈ schemaOf c := by
  unfold getAllowedTables at h
  unfold schemaOf
  by_cases hc : (c == "FBA") = true
  · simp only [hc, if_true] at h ⊢
    have := (List.mem_filter.mp h).2
    simp at this
    rcases this with h1 | h1 <;> simp [h1]
  · simp only [hc, if_false] at h ⊢
    have hm := (List.perm_insertionSort
      (fun a b => f94Priority a ≤ f94Priority b) _).mem_iff.mp h
    have := (List.mem_filter.mp hm).2
    simp at this
    rcases this with h1 | h1 | h1 <;> simp [h1]

theorem mem_allowedOf_sub {t : String} {pm : PlanManager} {item : PlanItem}
    (h : t ∈ allowedOf pm item) : ∃ e, t ∈ getAllowedTables pm.curriculum e := by
  unfold allowedOf at h
  by_cases hc : item.isCustom
  · simp [hc] at h
  · simp only [hc, if_neg, Bool.false_eq_true, not_false_iff, if_false] at h
    cases hex : examOf pm item with
    | none => rw [hex] at h; simp at h
    | some e => rw [hex] at h; exact ⟨e, h⟩

theorem fac_mem_schema (c : String) : "Facoltativi" ∈ schemaOf c := by
  unfold schemaOf; split <;> simp

theorem fp_mem_schema (c : String) : "Fuori Piano" ∈ schemaOf c := by
  unfold schemaOf; split <;> simp

theorem obb_mem_schema (c : String) : "Obbligatori" ∈ schemaOf c := by
  unfold schemaOf; split <;> simp

theorem placeOne_core (pm : PlanManager) (L : String → Nat) (M F : Nat)
    (acc : List PlanItem) (item : PlanItem) :
    SameCore item (placeOne pm L M F acc item) := by
  unfold placeOne
  split
  · exact ⟨rfl, rfl, rfl, rfl, rfl⟩
  · split
    · exact ⟨rfl, rfl, rfl, rfl, rfl⟩
    · exact ⟨rfl, rfl, rfl, rfl, rfl⟩

theorem placeOne_table (pm : PlanManager) (L : String → Nat) (M F : Nat)
    (acc : List PlanItem) (item : PlanItem) :
    (placeOne pm L M F acc item).table ∈ allowedOf pm item ∨
    (placeOne pm L M F acc item).table = "Facoltativi" ∨
    (placeOne pm L M F acc item).table = "Fuori Piano" := by
  unfold placeOne
  split
  · next t heq =>
    left
    simpa using List.mem_of_find?_eq_some heq
  · right
    split
    · left; rfl
    · right; rfl

theorem placeOne_not_obb (pm : PlanManager) (L : String → Nat) (M F : Nat)
    (acc : List PlanItem) (item : PlanItem) :
    ¬ (placeOne pm L M F acc item).table = "Obbligatori" := by
  rcases placeOne_table pm L M F acc item with h | h | h
  · intro hEq
    rw [hEq] at h
    rcases mem_allowedOf_sub h with ⟨e, he⟩
    exact not_obb_mem_getAllowedTables he
  · rw [h]; decide
  · rw [h]; decide

theorem placeOne_mem_schema (pm : PlanManager) (L : String → Nat) (M F : Nat)
    (acc : List PlanItem) (item : PlanItem) :
    (placeOne pm L M F acc item).table ∈ schemaOf pm.curriculum := by
  rcases placeOne_table pm L M F acc item with h | h | h
  · rcases mem_allowedOf_sub h with ⟨e, he⟩
    exact mem_schema_of_allowed he
  · rw [h]; exact fac_mem_schema _
  · rw [h]; exact fp_mem_schema _

/-- Structure of the greedy pass: the accumulator is extended by one
reassigned entry per active entry, cores preserved, no entry landing in
the mandatory table, every target inside the schema. -/
theorem placeActives_decomp (pm : PlanManager) (L : String → Nat) (M F : Nat) :
    ∀ (actives acc : List PlanItem), ∃ rest,
      placeActives pm L M F acc actives = acc ++ rest ∧
      List.Forall₂ SameCore actives rest ∧
      ∀ r ∈ rest, ¬ r.table = "Obbligatori" ∧ r.table ∈ schemaOf pm.curriculum := by
  intro actives
  induction actives with
  | nil =>
    intro acc
    exact ⟨[], by simp [placeActives], List.Forall₂.nil, by simp⟩
  | cons item rest ih =>
    intro acc
    obtain ⟨tail, hEq, hCore, hProp⟩ := ih (acc ++ [placeOne pm L M F acc item])
    refine ⟨placeOne pm L M F acc item :: tail, ?_, ?_, ?_⟩
    · simp only [placeActives, hEq, List.append_assoc, List.singleton_append]
    · exact List.Forall₂.cons (placeOne_core pm L M F acc item) hCore
    · intro r hr
      rcases List.mem_cons.mp hr with h | h
      · rw [h]
        exact ⟨placeOne_not_obb pm L M F acc item, placeOne_mem_schema pm L M F acc item⟩
      · exact hProp r h

/-! ## Consequences for rebalanceBuckets -/

/-- Decomposition of a rebalanced plan: the mandatory entries of the old
plan first and untouched, then one reassigned entry per active entry. -/
theorem rebalance_decomp (pm : PlanManager) : ∃ rest,
    (rebalanceBuckets pm).plan = pm.plan.filter (fun p => p.table == "Obbligatori") ++ rest ∧
    List.Forall₂ SameCore (pm.plan.filter (fun p => !(p.table == "Obbligatori"))) rest ∧
    ∀ r ∈ rest, ¬ r.table = "Obbligatori" ∧ r.table ∈ schemaOf pm.curriculum := by
  obtain ⟨rest, hEq, hCore, hProp⟩ :=
    placeActives_decomp pm (limitOf (curriculumRules pm)) (minSumBCOf (curriculumRules pm))
      pm.rules.degree_requirements.common_rules.free_exams_credits
      (pm.plan.filter (fun p => !(p.table == "Obbligatori")))
      (pm.plan.filter (fun p => p.table == "Obbligatori"))
  exact ⟨rest, hEq, hCore, hProp⟩

theorem rebalance_allExams (pm : PlanManager) :
    (rebalanceBuckets pm).allExams = pm.allExams := rfl

theorem rebalance_rules (pm : PlanManager) :
    (rebalanceBuckets pm).rules = pm.rules := rfl

theorem rebalance_year (pm : PlanManager) :
    (rebalanceBuckets pm).year = pm.year := rfl

theorem rebalance_curriculum (pm : PlanManager) :
    (rebalanceBuckets pm).curriculum = pm.curriculum := rfl

theorem mand_filter_of_all_mand (l : List PlanItem)
    (h : ∀ p ∈ l, p.table = "Obbligatori") :
    l.filter (fun p => p.table == "Obbligatori") = l := by
  rw [List.filter_eq_self]
  intro p hp
  simp [h p hp]

theorem mand_filter_of_none_mand (l : List PlanItem)
    (h : ∀ p ∈ l, ¬ p.table = "Obbligatori") :
    l.filter (fun p => p.table == "Obbligatori") = [] := by
  rw [List.filter_eq_nil_iff]
  intro p hp
  simp [h p hp]

theorem active_filter_of_none_mand (l : List PlanItem)
    (h : ∀ p ∈ l, ¬ p.table = "Obbligatori") :
    l.filter (fun p => !(p.table == "Obbligatori")) = l := by
  rw [List.filter_eq_self]
  intro p hp
  simp [h p hp]

theorem active_filter_of_all_mand (l : List PlanItem)
    (h : ∀ p ∈ l, p.table = "Obbligatori") :
    l.filter (fun p => !(p.table == "Obbligatori")) = [] := by
  rw [List.filter_eq_nil_iff]
  intro p hp
  simp [h p hp]

theorem mem_mand_filter_table {p : PlanItem} {l : List PlanItem}
    (h : p ∈ l.filter (fun q => q.table == "Obbligatori")) : p.table = "Obbligatori" := by
  have := (List.mem_filter.mp h).2
  simpa using this

theorem mem_active_filter_table {p : PlanItem} {l : List PlanItem}
    (h : p ∈ l.filter (fun q => !(q.table == "Obbligatori"))) :
    ¬ p.table = "Obbligatori" := by
  have := (List.mem_filter.mp h).2
  simpa using this

/-- Rebalancing preserves the mandatory entries, as a list. -/
theorem rebalance_mand_filter (pm : PlanManager) :
    (rebalanceBuckets pm).plan.filter (fun p => p.table == "Obbligatori") =
      pm.plan.filter (fun p => p.table == "Obbligatori") := by
  obtain ⟨rest, hEq, _, hProp⟩ := rebalance_decomp pm
  rw [hEq, List.filter_append,
    mand_filter_of_all_mand _ (fun p hp => mem_mand_filter_table hp),
    mand_filter_of_none_mand rest (fun p hp => (hProp p hp).1), List.append_nil]

/-- The active part of a rebalanced plan is exactly the reassigned rest. -/
theorem rebalance_active_filter (pm : PlanManager) :
    ∀ rest, (rebalanceBuckets pm).plan =
        pm.plan.filter (fun p => p.table == "Obbligatori") ++ rest →
      (∀ r ∈ rest, ¬ r.table = "Obbligatori") →
      (rebalanceBuckets pm).plan.filter (fun p => !(p.table == "Obbligatori")) = rest := by
  intro rest hEq hProp
  rw [hEq, List.filter_append,
    active_filter_of_all_mand _ (fun p hp => mem_mand_filter_table hp),
    active_filter_of_none_mand rest hProp, List.nil_append]

/-- Mandatory-entries-first normal form of a plan list. -/
def MandFirst (l : List PlanItem) : Prop :=
  l = l.filter (fun p => p.table == "Obbligatori") ++ l.filter (fun p => !(p.table == "Obbligatori"))

theorem rebalance_mandFirst (pm : PlanManager) : MandFirst (rebalanceBuckets pm).plan := by
  obtain ⟨rest, hEq, _, hProp⟩ := rebalance_decomp pm
  unfold MandFirst
  rw [rebalance_mand_filter pm, rebalance_active_filter pm rest hEq (fun r hr => (hProp r hr).1)]
  exact hEq

theorem rebalance_tables_schema (pm : PlanManager) :
    ∀ item ∈ (rebalanceBuckets pm).plan, item.table ∈ schemaOf (rebalanceBuckets pm).curriculum := by
  obtain ⟨rest, hEq, _, hProp⟩ := rebalance_decomp pm
  intro item hItem
  rw [hEq] at hItem
  rw [rebalance_curriculum]
  rcases List.mem_append.mp hItem with h | h
  · rw [mem_mand_filter_table h]
    exact obb_mem_schema _
  · exact (hProp item h).2

theorem forall₂_sameCore_length {l₁ l₂ : List PlanItem}
    (h : List.Forall₂ SameCore l₁ l₂) : l₁.length = l₂.length :=
  List.Forall₂.length_eq h

theorem filter_partition_length (l : List PlanItem) :
    (l.filter (fun p => p.table == "Obbligatori")).length +
      (l.filter (fun p => !(p.table == "Obbligatori"))).length = l.length := by
  induction l with
  | nil => simp
  | cons a t ih =>
    by_cases h : a.table == "Obbligatori"
    · simp only [List.filter_cons, h, if_true, Bool.not_true, Bool.false_eq_true, if_false,
        List.length_cons]
      omega
    · simp only [List.filter_cons, h, Bool.false_eq_true, if_false, Bool.not_false, if_true,
        List.length_cons]
      omega

/-- Rebalancing never adds or removes entries. -/
theorem rebalance_length (pm : PlanManager) :
    (rebalanceBuckets pm).plan.length = pm.plan.length := by
  obtain ⟨rest, hEq, hCore, _⟩ := rebalance_decomp pm
  rw [hEq, List.length_append, ← forall₂_sameCore_length hCore]
  exact filter_partition_length pm.plan

theorem forall₂_filter_length {l₁ l₂ : List PlanItem} (q : PlanItem → Bool)
    (hq : ∀ a b, SameCore a b → q a = q b)
    (h : List.Forall₂ SameCore l₁ l₂) :
    (l₁.filter q).length = (l₂.filter q).length := by
  induction h with
  | nil => rfl
  | @cons a b t₁ t₂ hab htl ih =>
    by_cases hqa : q a = true
    · have hqb : q b = true := by rw [← hq a b hab]; exact hqa
      simp only [List.filter_cons, hqa, hqb, if_true, List.length_cons, ih]
    · have hqb : ¬ q b = true := by rw [← hq a b hab]; exact hqa
      simp only [List.filter_cons, hqa, hqb, Bool.false_eq_true, if_false, ih]

theorem filter_partition_count (q : PlanItem → Bool) (l : List PlanItem) :
    (List.filter q (l.filter (fun p => p.table == "Obbligatori"))).length +
      (List.filter q (l.filter (fun p => !(p.table == "Obbligatori")))).length
      = (l.filter q).length := by
  induction l with
  | nil => simp
  | cons a t ih =>
    by_cases h1 : (a.table == "Obbligatori") = true <;> by_cases h2 : q a = true <;>
      simp only [List.filter_cons, h1, h2, if_true, if_false, Bool.not_true, Bool.not_false,
        Bool.false_eq_true, List.length_cons] <;> omega

/-- Count of entries matched by a predicate on core fields is preserved
by rebalancing. -/
theorem rebalance_count_core (pm : PlanManager) (q : PlanItem → Bool)
    (hq : ∀ a b, SameCore a b → q a = q b) :
    ((rebalanceBuckets pm).plan.filter q).length = (pm.plan.filter q).length := by
  obtain ⟨rest, hEq, hCore, _⟩ := rebalance_decomp pm
  rw [hEq, List.filter_append, List.length_append]
  rw [← forall₂_filter_length q hq hCore]
  exact filter_partition_count q pm.plan

/-! ## Invariants of reachable states -/

/-- Every step either leaves the plan and curriculum untouched or ends in
a rebalanceBuckets call. -/
theorem step_cases {exams : List Exam} {pm pm' : PlanManager} (h : Step exams pm pm') :
    (pm'.plan = pm.plan ∧ pm'.curriculum = pm.curriculum) ∨
    (∃ q, pm' = rebalanceBuckets q) := by
  cases h with
  | setYear y => left; exact ⟨rfl, rfl⟩
  | setCurriculum c => right; exact ⟨_, rfl⟩
  | migratePlan => right; exact ⟨_, rfl⟩
  | addExam e tt hmem =>
    unfold addExam
    by_cases hdup : pm.plan.any (fun p => p.examId == some e.id)
    · left; simp [hdup]
    · right
      simp only [hdup, Bool.false_eq_true, if_false]
      exact ⟨_, rfl⟩
  | addCustomExam name cfu table now => right; exact ⟨_, rfl⟩
  | removeExam id =>
    unfold removeExam
    cases hf : pm.plan.find? (fun p => p.id == id) with
    | some item =>
      by_cases hmand : item.table == "Obbligatori"
      · left; simp [hf, hmand]
      · right
        simp only [hf, hmand, Bool.false_eq_true, if_false]
        exact ⟨_, rfl⟩
    | none => right; simp only [hf]; exact ⟨_, rfl⟩
  | moveExam id nt =>
    unfold moveExam
    cases hf : pm.plan.find? (fun p => p.id == id) with
    | some item =>
      by_cases hc : (!item.isCustom && !(nt == "Facoltativi") && !(nt == "Obbligatori")
          && !(nt == "Fuori Piano")) = true
      · simp only [hf, hc, if_true]
        by_cases ha : ((match examOf pm item with
            | some exam => getAllowedTables pm.curriculum exam
            | none => []).contains nt) = true
        · right
          simp only [ha, Bool.not_true, Bool.false_eq_true, if_false]
          exact ⟨_, rfl⟩
        · left
          have hmem : ¬ nt ∈ (match examOf pm item with
              | some exam => getAllowedTables pm.curriculum exam
              | none => []) := by
            simpa using ha
          simp [hmem]
      · right
        simp only [hf, hc, Bool.false_eq_true, if_false]
        exact ⟨_, rfl⟩
    | none => right; simp only [hf]; exact ⟨_, rfl⟩
  | rebalanceBuckets => right; exact ⟨pm, rfl⟩
  | reset => right; exact ⟨_, rfl⟩
  | initDefaults => right; exact ⟨_, rfl⟩

/-- Reachable states keep the mandatory entries in front. -/
theorem reachable_mandFirst {exams : List Exam} {rules : Rules} {pm : PlanManager}
    (h : Reachable exams rules pm) : MandFirst pm.plan := by
  induction h with
  | init => unfold MandFirst initialPM; simp
  | step _ hstep ih =>
    rcases step_cases hstep with ⟨hplan, _⟩ | ⟨q, hq⟩
    · unfold MandFirst at *
      rw [hplan]
      exact ih
    · rw [hq]
      exact rebalance_mandFirst q

/-- Reachable states only carry tables of the active curriculum's
schema. -/
theorem reachable_schema {exams : List Exam} {rules : Rules} {pm : PlanManager}
    (h : Reachable exams rules pm) :
    ∀ item ∈ pm.plan, item.table ∈ schemaOf pm.curriculum := by
  induction h with
  | init => unfold initialPM; simp
  | step _ hstep ih =>
    rcases step_cases hstep with ⟨hplan, hcur⟩ | ⟨q, hq⟩
    · rw [hplan, hcur]
      exact ih
    · rw [hq]
      exact rebalance_tables_schema q

/-- On a mandatory-first plan, when some mandatory entry carries the id,
find? returns a mandatory entry. -/
theorem find_mand_of_mandFirst {l : List PlanItem} {e : PlanItem} {id : String}
    (hmf : MandFirst l) (he : e ∈ l) (hmand : e.table = "Obbligatori") (hid : e.id = id) :
    ∃ x, l.find? (fun p => p.id == id) = some x ∧ x.table = "Obbligatori" := by
  have heMand : e ∈ l.filter (fun p => p.table == "Obbligatori") :=
    List.mem_filter.mpr ⟨he, by simp [hmand]⟩
  have hsome : (List.find? (fun p => p.id == id)
      (l.filter (fun p => p.table == "Obbligatori"))).isSome := by
    rw [List.find?_isSome]
    exact ⟨e, heMand, by simp [hid]⟩
  cases hx : List.find? (fun p => p.id == id) (l.filter (fun p => p.table == "Obbligatori")) with
  | none => rw [hx] at hsome; simp at hsome
  | some x =>
    refine ⟨x, ?_, ?_⟩
    · conv => lhs; rw [hmf]
      rw [List.find?_append, hx]
      rfl
    · exact mem_mand_filter_table (List.mem_of_find?_eq_some hx)

/-- When find? returns a non-mandatory entry on a mandatory-first plan,
no mandatory entry carries the id. -/
theorem find_nonmand_no_mand_id {l : List PlanItem} {x : PlanItem} {id : String}
    (hmf : MandFirst l) (hx : l.find? (fun p => p.id == id) = some x)
    (hxn : ¬ x.table = "Obbligatori") :
    ∀ e ∈ l, e.table = "Obbligatori" → ¬ e.id = id := by
  intro e he hmand hid
  obtain ⟨y, hy, hymand⟩ := find_mand_of_mandFirst hmf he hmand hid
  rw [hy] at hx
  cases hx
  exact hxn hymand

/-- The per-entry migration never produces a mandatory table for a
non-mandatory entry, so the mandatory entries pass through unchanged. -/
theorem migrate_filterMap_mand (pm : PlanManager) (l : List PlanItem) :
    (l.filterMap (migrateItem pm)).filter (fun p => p.table == "Obbligatori") =
      l.filter (fun p => p.table == "Obbligatori") := by
  induction l with
  | nil => simp
  | cons a t ih =>
    by_cases hmand : (a.table == "Obbligatori") = true
    · have : migrateItem pm a = some a := by unfold migrateItem; simp [hmand]
      simp only [List.filterMap_cons, this, List.filter_cons, hmand, if_true, ih]
    · have hnm : ¬ a.table = "Obbligatori" := by simpa using hmand
      by_cases hcust : a.isCustom = true
      · have : migrateItem pm a = some a := by
          unfold migrateItem
          simp [hmand, hcust]
        simp only [List.filterMap_cons, this, List.filter_cons, hmand, Bool.false_eq_true,
          if_false, ih]
      · cases hex : examOf pm a with
        | none =>
          have : migrateItem pm a = none := by
            unfold migrateItem
            simp [hmand, hcust, hex]
          simp only [List.filterMap_cons, this, List.filter_cons, hmand, Bool.false_eq_true,
            if_false, ih]
        | some exam =>
          cases hal : getAllowedTables pm.curriculum exam with
          | nil =>
            have : migrateItem pm a = some { a with table := "Facoltativi" } := by
              unfold migrateItem
              simp [hmand, hcust, hex, hal]
            simp only [List.filterMap_cons, this, List.filter_cons, ih]
            have : (({ a with table := "Facoltativi" } : PlanItem).table
                == "Obbligatori") = false := by simp
            simp only [this, Bool.false_eq_true, if_false, hmand, ih]
          | cons t0 ts =>
            have hmem : t0 ∈ getAllowedTables pm.curriculum exam := by rw [hal]; simp
            have ht0 : ¬ t0 = "Obbligatori" := by
              intro hEq
              rw [hEq] at hmem
              exact not_obb_mem_getAllowedTables hmem
            have : migrateItem pm a = some { a with table := t0 } := by
              unfold migrateItem
              simp [hmand, hcust, hex, hal]
            simp only [List.filterMap_cons, this, List.filter_cons, ih]
            have hne : (({ a with table := t0 } : PlanItem).table == "Obbligatori") = false := by
              simp [ht0]
            simp only [hne, Bool.false_eq_true, if_false, hmand, ih]

/-! ## Mandatory-entry immunity lemmas -/

theorem forall₂_sameCore_refl (l : List PlanItem) : List.Forall₂ SameCore l l := by
  induction l with
  | nil => constructor
  | cons a t ih => exact List.Forall₂.cons (sameCore_refl a) ih

theorem updateFirstTable_core (l : List PlanItem) (id tbl : String) :
    List.Forall₂ SameCore l (updateFirstTable l id tbl) := by
  induction l with
  | nil => constructor
  | cons a t ih =>
    unfold updateFirstTable
    by_cases h : (a.id == id) = true
    · simp only [h, if_true]
      exact List.Forall₂.cons ⟨rfl, rfl, rfl, rfl, rfl⟩ (forall₂_sameCore_refl t)
    · simp only [h, Bool.false_eq_true, if_false]
      exact List.Forall₂.cons (sameCore_refl a) ih

theorem filter_id_preserves_mand (l : List PlanItem) (id : String)
    (hno : ∀ e ∈ l, e.table = "Obbligatori" → ¬ e.id = id) :
    (l.filter (fun p => !(p.id == id))).filter (fun p => p.table == "Obbligatori") =
      l.filter (fun p => p.table == "Obbligatori") := by
  induction l with
  | nil => simp
  | cons a t ih =>
    have iht := ih (fun e he hm => hno e (List.mem_cons_of_mem a he) hm)
    by_cases hmand : (a.table == "Obbligatori") = true
    · have hid : ¬ a.id = id := hno a (by simp) (by simpa using hmand)
      have hid' : (a.id == id) = false := by simpa using hid
      simp only [List.filter_cons, hid', Bool.not_false, if_true, hmand, iht]
    · by_cases hid : (a.id == id) = true
      · simp only [List.filter_cons, hid, Bool.not_true, Bool.false_eq_true, if_false, hmand, iht]
      · simp only [List.filter_cons, hid, Bool.not_false, if_true, hmand, Bool.false_eq_true,
          if_false, iht]

/-- removeExam on the id of a mandatory entry of a reachable state is a
complete no-op. -/
theorem removeExam_mand_noop {exams : List Exam} {rules : Rules} {pm : PlanManager}
    (h : Reachable exams rules pm) {id : String}
    (he : ∃ e ∈ pm.plan, e.id = id ∧ e.table = "Obbligatori") :
    removeExam pm id = pm := by
  obtain ⟨e, hmem, hid, hmand⟩ := he
  obtain ⟨x, hx, hxmand⟩ := find_mand_of_mandFirst (reachable_mandFirst h) hmem hmand hid
  unfold removeExam
  rw [hx]
  simp [hxmand]

/-- removeExam never touches the mandatory entries of a reachable state. -/
theorem removeExam_mand_filter {exams : List Exam} {rules : Rules} {pm : PlanManager}
    (h : Reachable exams rules pm) (id : String) :
    (removeExam pm id).plan.filter (fun p => p.table == "Obbligatori") =
      pm.plan.filter (fun p => p.table == "Obbligatori") := by
  unfold removeExam
  cases hf : pm.plan.find? (fun p => p.id == id) with
  | none =>
    have hall : pm.plan.filter (fun p => !(p.id == id)) = pm.plan := by
      rw [List.filter_eq_self]
      intro p hp
      have := List.find?_eq_none.mp hf p hp
      simpa using this
    rw [rebalance_mand_filter]
    simp only [hall]
  | some x =>
    by_cases hmand : (x.table == "Obbligatori") = true
    · simp [hmand]
    · have hno := find_nonmand_no_mand_id (reachable_mandFirst h) hf (by simpa using hmand)
      simp only [hmand, Bool.false_eq_true, if_false]
      rw [rebalance_mand_filter]
      exact filter_id_preserves_mand pm.plan id hno

/-- migratePlan never touches the mandatory entries. -/
theorem migrate_mand_filter (pm : PlanManager) :
    (migratePlan pm).plan.filter (fun p => p.table == "Obbligatori") =
      pm.plan.filter (fun p => p.table == "Obbligatori") := by
  unfold migratePlan
  rw [rebalance_mand_filter]
  exact migrate_filterMap_mand pm pm.plan

/-- setCurriculum never touches the mandatory entries. -/
theorem setCurriculum_mand_filter (pm : PlanManager) (c : String) :
    (setCurriculum pm c).plan.filter (fun p => p.table == "Obbligatori") =
      pm.plan.filter (fun p => p.table == "Obbligatori") := by
  unfold setCurriculum
  exact migrate_mand_filter { pm with curriculum := c }

theorem id_pred_core (x : String) :
    ∀ a b : PlanItem, SameCore a b → (a.id == x) = (b.id == x) := by
  intro a b hab
  rw [hab.1]

/-- moveExam never removes or adds an entry carrying any given id. -/
theorem moveExam_count_id (pm : PlanManager) (id nt x : String) :
    ((moveExam pm id nt).fst.plan.filter (fun p => p.id == x)).length =
      (pm.plan.filter (fun p => p.id == x)).length := by
  unfold moveExam
  cases hf : pm.plan.find? (fun p => p.id == id) with
  | none =>
    exact rebalance_count_core pm (fun p => p.id == x) (id_pred_core x)
  | some item =>
    have hupd : ((rebalanceBuckets { pm with plan := updateFirstTable pm.plan id nt }).plan.filter
        (fun p => p.id == x)).length = (pm.plan.filter (fun p => p.id == x)).length := by
      rw [rebalance_count_core _ (fun p => p.id == x) (id_pred_core x)]
      exact (forall₂_filter_length (fun p => p.id == x) (id_pred_core x)
        (updateFirstTable_core pm.plan id nt)).symm
    by_cases hc : (!item.isCustom && !(nt == "Facoltativi") && !(nt == "Obbligatori")
        && !(nt == "Fuori Piano")) = true
    · simp only [hc, if_true]
      by_cases ha : ((match examOf pm item with
          | some exam => getAllowedTables pm.curriculum exam
          | none => []).contains nt) = true
      · simp only [ha, Bool.not_true, Bool.false_eq_true, if_false]
        exact hupd
      · have hmem : ¬ nt ∈ (match examOf pm item with
            | some exam => getAllowedTables pm.curriculum exam
            | none => []) := by simpa using ha
        simp [hmem]
    · simp only [hc, Bool.false_eq_true, if_false]
      exact hupd

/-! ## Concrete states used by witnesses and counterexamples -/

/-- A requirements document with no curriculum rules, a 12-credit free
target and a 120-credit total target. -/
def rulesPlain : Rules :=
  { degree_requirements :=
    { common_rules := { mandatory_exams := [], free_exams_credits := 12, total_credits := 120 },
      programs := fun _ => { curriculum_rules := [] } } }

/-- A reachable state holding one custom entry in the Mandatory table
(created through addCustomExam with target table Obbligatori). -/
def pmMandatory : PlanManager :=
  addCustomExam (initialPM [] rulesPlain) "Meta" 6 "Obbligatori" 0

theorem pmMandatory_reachable : Reachable [] rulesPlain pmMandatory :=
  Reachable.step Reachable.init (Step.addCustomExam _ "Meta" 6 "Obbligatori" 0)

/-- Claim C2, as stated, is false: moveExam can reassign a Mandatory
entry. On the reachable state pmMandatory, whose only entry sits in the
Obbligatori table, moveExam sends it to Facoltativi (the JS code checks
neither the entry's current table nor, for custom entries, anything at
all before retabling). -/
theorem claim_C2_counterexample :
    Reachable [] rulesPlain pmMandatory ∧
    (∃ e ∈ pmMandatory.plan, e.id = "custom-0" ∧ e.table = "Obbligatori") ∧
    ((moveExam pmMandatory "custom-0" "Fuori Piano").fst.plan.map (fun p => (p.id, p.table))) =
      [("custom-0", "Facoltativi")] ∧
    (moveExam pmMandatory "custom-0" "Fuori Piano").snd = true :=
  ⟨pmMandatory_reachable, by decide, by decide, by decide⟩

/-- Claim C2 (amended): on every reachable state, removeExam,
migratePlan, setCurriculum and rebalanceBuckets preserve the Mandatory
entries (same entries, same order, same Obbligatori table), removeExam on
a Mandatory entry's id is a complete no-op (in particular the plan size
is unchanged), and moveExam removes no entry (the count of entries
carrying any id is preserved) — but moveExam is NOT required to preserve
a Mandatory entry's table assignment (see the counterexample). -/
theorem claim_C2_amended (exams : List Exam) (rules : Rules) (pm : PlanManager)
    (id c nt xid : String) (h : Reachable exams rules pm) :
    ((removeExam pm id).plan.filter (fun p => p.table == "Obbligatori") =
      pm.plan.filter (fun p => p.table == "Obbligatori")) ∧
    ((∃ e ∈ pm.plan, e.id = id ∧ e.table = "Obbligatori") → removeExam pm id = pm) ∧
    ((migratePlan pm).plan.filter (fun p => p.table == "Obbligatori") =
      pm.plan.filter (fun p => p.table == "Obbligatori")) ∧
    ((setCurriculum pm c).plan.filter (fun p => p.table == "Obbligatori") =
      pm.plan.filter (fun p => p.table == "Obbligatori")) ∧
    ((rebalanceBuckets pm).plan.filter (fun p => p.table == "Obbligatori") =
      pm.plan.filter (fun p => p.table == "Obbligatori")) ∧
    (((moveExam pm id nt).fst.plan.filter (fun p => p.id == xid)).length =
      (pm.plan.filter (fun p => p.id == xid)).length) :=
  ⟨removeExam_mand_filter h id, removeExam_mand_noop h, migrate_mand_filter pm,
    setCurriculum_mand_filter pm c, rebalance_mand_filter pm, moveExam_count_id pm id nt xid⟩

/-- Witness for claim C2 (amended) at the concrete reachable state
pmMandatory: removing the mandatory entry by id changes nothing, and
moveExam does not remove it. -/
theorem claim_C2_amended_witness :
    removeExam pmMandatory "custom-0" = pmMandatory ∧
    ((moveExam pmMandatory "custom-0" "Fuori Piano").fst.plan.filter
        (fun p => p.id == "custom-0")).length =
      (pmMandatory.plan.filter (fun p => p.id == "custom-0")).length := by
  have h := claim_C2_amended [] rulesPlain pmMandatory "custom-0" "F94" "Fuori Piano" "custom-0"
    pmMandatory_reachable
  exact ⟨h.2.1 (by decide), h.2.2.2.2.2⟩

/-- Claim C9: moveExam with an id matching no entry returns true, removes
or adds nothing, and merely re-runs the bucket reassignment on the
unchanged plan. -/
theorem claim_C9_moveExam_unknown_id (pm : PlanManager) (id nt : String)
    (h : pm.plan.find? (fun p => p.id == id) = none) :
    moveExam pm id nt = (rebalanceBuckets pm, true) ∧
    (moveExam pm id nt).fst.plan.length = pm.plan.length := by
  constructor
  · unfold moveExam
    rw [h]
  · unfold moveExam
    rw [h]
    exact rebalance_length pm

/-- Witness for claim C9 on the empty initial state and a ghost id. -/
theorem claim_C9_witness :
    moveExam (initialPM [] rulesPlain) "ghost" "A" =
      (rebalanceBuckets (initialPM [] rulesPlain), true) ∧
    (moveExam (initialPM [] rulesPlain) "ghost" "A").fst.plan.length =
      (initialPM [] rulesPlain).plan.length :=
  claim_C9_moveExam_unknown_id (initialPM [] rulesPlain) "ghost" "A" (by decide)

/-- Claim C10: validate is read-only — the threaded receiver state (plan,
year, curriculum, catalog and rules included) is exactly the input state,
and in particular no bucket reassignment is triggered. -/
theorem claim_C10_validate_readonly (pm : PlanManager) :
    (validateRun pm).fst = pm ∧
    (validateRun pm).fst.plan = pm.plan ∧
    (validateRun pm).fst.year = pm.year ∧
    (validateRun pm).fst.curriculum = pm.curriculum :=
  ⟨rfl, rfl, rfl, rfl⟩

/-! ## Claim C7: getAllowedTables -/

instance f94PriorityRelTotal : IsTotal String (fun a b => f94Priority a ≤ f94Priority b) :=
  ⟨fun a b => Nat.le_total (f94Priority a) (f94Priority b)⟩

instance f94PriorityRelTrans : IsTrans String (fun a b => f94Priority a ≤ f94Priority b) :=
  ⟨fun _ _ _ hab hbc => Nat.le_trans hab hbc⟩

/-- Claim C7: getAllowedTables keeps only tokens of the active
curriculum's fixed table set; under FBA the kept tokens are a sublist of
the split-and-trimmed rawTable parts (original relative order preserved),
and under F94 the result is sorted by the fixed priority A before B
before C. -/
theorem claim_C7_allowed_tables (exam : Exam) :
    List.Sublist (getAllowedTables "FBA" exam) ((jsSplit exam.rawTable '|').map jsTrim) ∧
    (getAllowedTables "FBA" exam).all (fun t => t == "1" || t == "2") = true ∧
    (getAllowedTables "F94" exam).all (fun t => t == "A" || t == "B" || t == "C") = true ∧
    List.Sorted (fun a b => f94Priority a ≤ f94Priority b) (getAllowedTables "F94" exam) := by
  refine ⟨?_, ?_, ?_, ?_⟩
  · unfold getAllowedTables
    simp only [show (("FBA" : String) == "FBA") = true by decide, if_true]
    exact List.filter_sublist _
  · unfold getAllowedTables
    simp only [show (("FBA" : String) == "FBA") = true by decide, if_true]
    rw [List.all_eq_true]
    intro x hx
    have h2 := (List.mem_filter.mp hx).2
    simp at h2 ⊢
    exact h2
  · unfold getAllowedTables
    simp only [show (("F94" : String) == "FBA") = false by decide, Bool.false_eq_true, if_false]
    rw [List.all_eq_true]
    intro x hx
    have hm := (List.perm_insertionSort
      (fun a b => f94Priority a ≤ f94Priority b) _).mem_iff.mp hx
    have h2 := (List.mem_filter.mp hm).2
    simp at h2 ⊢
    tauto
  · unfold getAllowedTables
    simp only [show (("F94" : String) == "FBA") = false by decide, Bool.false_eq_true, if_false]
    exact List.sorted_insertionSort _ _

/-! ## Claims C5 and C4: the availability descriptor language -/

/-- Claim C5: isExamAvailable interprets the descriptor by the code's
case order — empty/missing and the case-insensitive keyword enabled give
true, the case-insensitive keyword disabled gives false, a literal
"From " prefix compares the year start components (integer before the
slash on each side), a string containing the substrings Biennial and
Even (resp. Odd, when Even is absent) tests the parity of the active
year's start component, and every other text gives true. -/
theorem claim_C5_isExamAvailable (pm : PlanManager) (exam : Exam) (a b : Int) :
    (exam.availability = "" → isExamAvailable pm exam = true) ∧
    (lowerStr exam.availability = "enabled" → isExamAvailable pm exam = true) ∧
    (lowerStr exam.availability = "disabled" → isExamAvailable pm exam = false) ∧
    (¬ lowerStr exam.availability = "enabled" → ¬ lowerStr exam.availability = "disabled" →
      jsStartsWith exam.availability "From " = true →
      parseIntJS (beforeChar '/' pm.year) = some a →
      parseIntJS (beforeChar '/' (jsTrim (jsReplaceFirst exam.availability "From " ""))) = some b →
      (isExamAvailable pm exam = true ↔ b ≤ a)) ∧
    (¬ lowerStr exam.availability = "enabled" → ¬ lowerStr exam.availability = "disabled" →
      jsStartsWith exam.availability "From " = false →
      jsIncludes exam.availability "Biennial" = true →
      jsIncludes exam.availability "Even" = true →
      parseIntJS (beforeChar '/' pm.year) = some a →
      (isExamAvailable pm exam = true ↔ a.tmod 2 = 0)) ∧
    (¬ lowerStr exam.availability = "enabled" → ¬ lowerStr exam.availability = "disabled" →
      jsStartsWith exam.availability "From " = false →
      jsIncludes exam.availability "Biennial" = true →
      jsIncludes exam.availability "Even" = false →
      jsIncludes exam.availability "Odd" = true →
      parseIntJS (beforeChar '/' pm.year) = some a →
      (isExamAvailable pm exam = true ↔ ¬ a.tmod 2 = 0)) ∧
    (¬ lowerStr exam.availability = "enabled" → ¬ lowerStr exam.availability = "disabled" →
      jsStartsWith exam.availability "From " = false →
      (jsIncludes exam.availability "Biennial" = false ∨
        (jsIncludes exam.availability "Even" = false ∧ jsIncludes exam.availability "Odd" = false)) →
      isExamAvailable pm exam = true) := by
  refine ⟨?_, ?_, ?_, ?_, ?_, ?_, ?_⟩
  · intro h
    simp [isExamAvailable, h]
  · intro h
    simp [isExamAvailable, h]
  · intro h
    have h0 : ¬ exam.availability = "" := by
      intro hE
      rw [hE] at h
      exact absurd h (by decide)
    simp [isExamAvailable, h, h0]
  · intro hEn hDis hFrom hpa hpb
    have h0 : ¬ exam.availability = "" := by
      intro hE
      rw [hE] at hFrom
      exact absurd hFrom (by decide)
    simp [isExamAvailable, h0, hEn, hDis, hFrom, hpa, hpb, jsGE]
  · intro hEn hDis hFrom hBi hEv hpa
    have h0 : ¬ exam.availability = "" := by
      intro hE
      rw [hE] at hBi
      exact absurd hBi (by decide)
    simp [isExamAvailable, h0, hEn, hDis, hFrom, hBi, hEv, hpa, jsIsEvenNum]
  · intro hEn hDis hFrom hBi hEv hOdd hpa
    have h0 : ¬ exam.availability = "" := by
      intro hE
      rw [hE] at hBi
      exact absurd hBi (by decide)
    simp [isExamAvailable, h0, hEn, hDis, hFrom, hBi, hEv, hOdd, hpa, jsIsEvenNum]
  · intro hEn hDis hFrom hrest
    by_cases h0 : exam.availability = ""
    · simp [isExamAvailable, h0]
    · rcases hrest with hBi | ⟨hEv, hOdd⟩
      · simp [isExamAvailable, h0, hEn, hDis, hFrom, hBi]
      · by_cases hBi : jsIncludes exam.availability "Biennial" = true
        · simp [isExamAvailable, h0, hEn, hDis, hFrom, hBi, hEv, hOdd]
        · simp [isExamAvailable, h0, hEn, hDis, hFrom, hBi]

/-- The exam of the C4 and C5 scenario: available from 2020. -/
def examFrom2020 : Exam :=
  { id := "f1", name := "F", cfu := 6, rawTable := "", availability := "From 2020" }

/-- Witness for claim C5: the From-comparison conjunct at year 2021/2022
against descriptor From 2020 yields available. -/
theorem claim_C5_witness :
    isExamAvailable (setYear (initialPM [] rulesPlain) "2021/2022") examFrom2020 = true := by
  have h := (claim_C5_isExamAvailable (setYear (initialPM [] rulesPlain) "2021/2022")
    examFrom2020 2021 2020).2.2.2.1
  exact (h (by decide) (by decide) (by decide) (by decide) (by decide)).mpr (by decide)

/-- Claim C4, as stated, is false: for an exam with availability
From 2020 and active year 2021/2022 the exam IS available, yet
getNextAvailabilityInfo does not return null — it returns the
available-from message (the JS code answers the From branch without ever
consulting the year). -/
theorem claim_C4_counterexample :
    isExamAvailable (setYear (initialPM [] rulesPlain) "2021/2022") examFrom2020 = true ∧
    getNextAvailabilityInfo (setYear (initialPM [] rulesPlain) "2021/2022") examFrom2020 =
      some (AvailInfo.availableFrom "2020") :=
  ⟨by decide, by decide⟩

/-- Claim C4 (amended): getNextAvailabilityInfo returns null exactly when
the availability is falsy or the case-insensitive keyword enabled; a
literal From-prefixed descriptor yields the available-from message (with
the prefix stripped) regardless of the active year; a Biennial descriptor
with unmet parity yields the fixed even/odd next-activation message; and
every other case (unmet or not) passes the raw availability string
through. -/
theorem claim_C4_amended (pm : PlanManager) (exam : Exam) :
    ((getNextAvailabilityInfo pm exam).isNone =
      (exam.availability == "" || lowerStr exam.availability == "enabled")) ∧
    (¬ exam.availability = "" → ¬ lowerStr exam.availability = "enabled" →
      jsStartsWith exam.availability "From " = true →
      getNextAvailabilityInfo pm exam =
        some (AvailInfo.availableFrom (jsReplaceFirst exam.availability "From " ""))) ∧
    (¬ exam.availability = "" → ¬ lowerStr exam.availability = "enabled" →
      jsStartsWith exam.availability "From " = false →
      jsIncludes exam.availability "Biennial" = true →
      jsIncludes exam.availability "Even" = true →
      jsIsEvenNum (parseIntJS (beforeChar '/' pm.year)) = false →
      getNextAvailabilityInfo pm exam = some AvailInfo.nextActivationEven) ∧
    (¬ exam.availability = "" → ¬ lowerStr exam.availability = "enabled" →
      jsStartsWith exam.availability "From " = false →
      jsIncludes exam.availability "Biennial" = true →
      (jsIncludes exam.availability "Even" && !(jsIsEvenNum (parseIntJS (beforeChar '/' pm.year)))) = false →
      jsIncludes exam.availability "Odd" = true →
      jsIsEvenNum (parseIntJS (beforeChar '/' pm.year)) = true →
      getNextAvailabilityInfo pm exam = some AvailInfo.nextActivationOdd) ∧
    (¬ exam.availability = "" → ¬ lowerStr exam.availability = "enabled" →
      jsStartsWith exam.availability "From " = false →
      jsIncludes exam.availability "Biennial" = true →
      (jsIncludes exam.availability "Even" && !(jsIsEvenNum (parseIntJS (beforeChar '/' pm.year)))) = false →
      (jsIncludes exam.availability "Odd" && jsIsEvenNum (parseIntJS (beforeChar '/' pm.year))) = false →
      getNextAvailabilityInfo pm exam = some (AvailInfo.raw exam.availability)) ∧
    (¬ exam.availability = "" → ¬ lowerStr exam.availability = "enabled" →
      jsStartsWith exam.availability "From " = false →
      jsIncludes exam.availability "Biennial" = false →
      getNextAvailabilityInfo pm exam = some (AvailInfo.raw exam.availability)) := by
  refine ⟨?_, ?_, ?_, ?_, ?_, ?_⟩
  · by_cases h1 : (exam.availability == "" || lowerStr exam.availability == "enabled") = true
    · simp [getNextAvailabilityInfo, h1]
    · simp only [getNextAvailabilityInfo, h1, Bool.false_eq_true, if_false]
      split
      · rfl
      · split
        · split
          · rfl
          · split <;> rfl
        · rfl
  · intro h0 hEn hFrom
    simp [getNextAvailabilityInfo, h0, hEn, hFrom]
  · intro h0 hEn hFrom hBi hEv hPar
    simp [getNextAvailabilityInfo, h0, hEn, hFrom, hBi, hEv, hPar]
  · intro h0 hEn hFrom hBi hEvPar hOdd hPar
    simp only [getNextAvailabilityInfo, h0, hEn, hFrom, hBi, hEvPar, hOdd, hPar]
    simp [h0, hEn, hFrom, hBi, hEvPar, hOdd, hPar]
  · intro h0 hEn hFrom hBi hEvPar hOddPar
    simp only [getNextAvailabilityInfo]
    simp [h0, hEn, hFrom, hBi, hEvPar, hOddPar]
  · intro h0 hEn hFrom hBi
    simp [getNextAvailabilityInfo, h0, hEn, hFrom, hBi]

/-- Witness for claim C4 (amended): the From exam yields the
available-from message at 2018/2019 (claim scenario) and also at
2021/2022 (where the original claim expected null). -/
theorem claim_C4_amended_witness :
    getNextAvailabilityInfo (setYear (initialPM [] rulesPlain) "2018/2019") examFrom2020 =
      some (AvailInfo.availableFrom "2020") ∧
    getNextAvailabilityInfo (setYear (initialPM [] rulesPlain) "2021/2022") examFrom2020 =
      some (AvailInfo.availableFrom "2020") := by
  have h1 := (claim_C4_amended (setYear (initialPM [] rulesPlain) "2018/2019") examFrom2020).2.1
    (by decide) (by decide) (by decide)
  have h2 := (claim_C4_amended (setYear (initialPM [] rulesPlain) "2021/2022") examFrom2020).2.1
    (by decide) (by decide) (by decide)
  constructor
  · rw [h1]; decide
  · rw [h2]; decide

/-! ## Claim C6: addExam -/

theorem examId_pred_core (x : String) :
    ∀ a b : PlanItem, SameCore a b → (a.examId == some x) = (b.examId == some x) := by
  intro a b hab
  rw [hab.2.1]

/-- Claim C6: addExam rejects, without any mutation, when an entry
already references the exam id; a successful addExam returns true, grows
the plan by exactly one entry, and leaves exactly one entry referencing
the exam id, so a second call with the same exam fails and changes
nothing. -/
theorem claim_C6_addExam (pm pmDup : PlanManager) (exam : Exam) (tt tt' ttDup : Option String)
    (hDup : pmDup.plan.any (fun p => p.examId == some exam.id) = true)
    (h : pm.plan.any (fun p => p.examId == some exam.id) = false) :
    addExam pmDup exam ttDup = (pmDup, false) ∧
    (addExam pm exam tt).snd = true ∧
    (addExam pm exam tt).fst.plan.length = pm.plan.length + 1 ∧
    ((addExam pm exam tt).fst.plan.filter (fun p => p.examId == some exam.id)).length = 1 ∧
    addExam (addExam pm exam tt).fst exam tt' = ((addExam pm exam tt).fst, false) := by
  have hcount : ((addExam pm exam tt).fst.plan.filter
      (fun p => p.examId == some exam.id)).length = 1 := by
    unfold addExam
    simp only [h, Bool.false_eq_true, if_false]
    rw [rebalance_count_core _ _ (examId_pred_core exam.id)]
    have hzero : pm.plan.filter (fun p => p.examId == some exam.id) = [] := by
      rw [List.filter_eq_nil_iff]
      exact List.any_eq_false.mp h
    simp [List.filter_append, hzero]
  refine ⟨?_, ?_, ?_, hcount, ?_⟩
  · unfold addExam
    simp [hDup]
  · unfold addExam
    simp [h]
  · unfold addExam
    simp only [h, Bool.false_eq_true, if_false]
    rw [rebalance_length]
    simp
  · have hex : ∃ x ∈ (addExam pm exam tt).fst.plan, x.examId = some exam.id := by
      have hne : ¬ ((addExam pm exam tt).fst.plan.filter
          (fun p => p.examId == some exam.id)).length = 0 := by
        rw [hcount]; decide
      cases hfil : (addExam pm exam tt).fst.plan.filter (fun p => p.examId == some exam.id) with
      | nil => rw [hfil] at hne; simp at hne
      | cons y ys =>
        have hy := List.mem_filter.mp (hfil ▸ (List.mem_cons_self y ys))
        exact ⟨y, hy.1, by simpa using hy.2⟩
    generalize hpm1 : (addExam pm exam tt).fst = pm₁ at hex ⊢
    unfold addExam
    simp [hex]

/-- Witness for claim C6 on an empty initial plan: the first add of the
From-2020 exam succeeds and the second one fails without mutation. -/
theorem claim_C6_witness :
    (addExam (initialPM [examFrom2020] rulesPlain) examFrom2020 none).snd = true ∧
    addExam (addExam (initialPM [examFrom2020] rulesPlain) examFrom2020 none).fst examFrom2020 none =
      ((addExam (initialPM [examFrom2020] rulesPlain) examFrom2020 none).fst, false) := by
  have h := claim_C6_addExam (initialPM [examFrom2020] rulesPlain)
    (addExam (initialPM [examFrom2020] rulesPlain) examFrom2020 none).fst examFrom2020
    none none none (by decide) (by decide)
  exact ⟨h.2.1, h.2.2.2.2⟩

/-! ## Claim C1: the greedy pass matches the specification wording -/

/-- The instrumented pass of the specification (running sums) agrees with
the code's pass (sums recomputed by filtering the output list), provided
the running sums describe the accumulator. Mandatory entries inside the
accumulator never contribute: every queried table differs from
Obbligatori. -/
theorem placeActives_eq_specGo (pm : PlanManager) (L : String → Nat) (M F : Nat) :
    ∀ (actives acc : List PlanItem) (sums : String → Nat) (bc fac : Nat),
      (∀ t, ¬ t = "Obbligatori" → sums t = tableSum acc t) →
      bc = bcSum acc → fac = tableSum acc "Facoltativi" →
      placeActives pm L M F acc actives = acc ++ specGo pm L M F sums bc fac actives := by
  intro actives
  induction actives with
  | nil =>
    intro acc sums bc fac hs hb hf
    simp [placeActives, specGo]
  | cons item rest ih =>
    intro acc sums bc fac hs hb hf
    have hpred : ∀ t ∈ allowedOf pm item, placePred L M acc t = specPred L M sums bc t := by
      intro t ht
      have htO : ¬ t = "Obbligatori" := by
        intro hEq
        rw [hEq] at ht
        rcases mem_allowedOf_sub ht with ⟨e, he⟩
        exact not_obb_mem_getAllowedTables he
      unfold placePred specPred
      rw [hs t htO, hb]
    have hfind : (allowedOf pm item).find? (placePred L M acc) =
        (allowedOf pm item).find? (specPred L M sums bc) :=
      find?_congr _ _ _ hpred
    have hchoose : placeOne pm L M F acc item =
        { item with table := specChooseTable pm L M F sums bc fac item } := by
      unfold placeOne specChooseTable
      rw [hfind]
      cases hv : (allowedOf pm item).find? (specPred L M sums bc) with
      | some t => rfl
      | none =>
        rw [← hf]
        by_cases hc : fac < F
        · simp [hc]
        · simp [hc]
    set chosen := specChooseTable pm L M F sums bc fac item with hchdef
    have hstep : placeActives pm L M F acc (item :: rest) =
        placeActives pm L M F (acc ++ [{ item with table := chosen }]) rest := by
      simp only [placeActives, hchoose]
    rw [hstep]
    have hs' : ∀ t, ¬ t = "Obbligatori" →
        (if (t == chosen) = true then sums t + item.cfu else sums t) =
          tableSum (acc ++ [{ item with table := chosen }]) t := by
      intro t htO
      rw [tableSum_append, tableSum_single]
      by_cases hEq : t = chosen
      · simp only [hEq]
        simp [hs chosen (hEq ▸ htO)]
      · have h1 : (t == chosen) = false := by simpa using hEq
        have h2 : (({ item with table := chosen } : PlanItem).table == t) = false := by
          simp only []
          simpa using fun hEq2 => hEq hEq2.symm
        simp [h1, h2, hs t htO]
    have hb' : (if (chosen == "B" || chosen == "C") = true then bc + item.cfu else bc) =
        bcSum (acc ++ [{ item with table := chosen }]) := by
      rw [bcSum_append, bcSum_single]
      by_cases hc : (chosen == "B" || chosen == "C") = true
      · simp only []
        simp [hc, hb]
      · simp only []
        simp only [hc, Bool.false_eq_true, if_false]
        have : (({ item with table := chosen } : PlanItem).table == "B" ||
            ({ item with table := chosen } : PlanItem).table == "C") = false := by
          simpa using hc
        simp [this, hb]
    have hf' : (if (chosen == "Facoltativi") = true then fac + item.cfu else fac) =
        tableSum (acc ++ [{ item with table := chosen }]) "Facoltativi" := by
      rw [tableSum_append, tableSum_single]
      by_cases hc : (chosen == "Facoltativi") = true
      · simp only []
        simp [hc, hf]
      · have : (({ item with table := chosen } : PlanItem).table == "Facoltativi") = false := by
          simpa using hc
        simp [this, hc, hf]
    have ihall := ih (acc ++ [{ item with table := chosen }])
      (fun x => if (x == chosen) = true then sums x + item.cfu else sums x)
      (if (chosen == "B" || chosen == "C") = true then bc + item.cfu else bc)
      (if (chosen == "Facoltativi") = true then fac + item.cfu else fac)
      hs' hb' hf'
    rw [ihall]
    simp only [specGo, List.append_assoc, List.singleton_append]

/-- The mandatory entries carry zero credit in every non-mandatory
table. -/
theorem mand_sums_zero (pm : PlanManager) :
    (∀ t, ¬ t = "Obbligatori" →
      (0 : Nat) = tableSum (pm.plan.filter (fun p => p.table == "Obbligatori")) t) ∧
    (0 : Nat) = bcSum (pm.plan.filter (fun p => p.table == "Obbligatori")) ∧
    (0 : Nat) = tableSum (pm.plan.filter (fun p => p.table == "Obbligatori")) "Facoltativi" := by
  refine ⟨?_, ?_, ?_⟩
  · intro t ht
    exact (tableSum_all_obb _ t (fun p hp => mem_mand_filter_table hp) ht).symm
  · exact (bcSum_all_obb _ (fun p hp => mem_mand_filter_table hp)).symm
  · exact (tableSum_all_obb _ _ (fun p hp => mem_mand_filter_table hp) (by decide)).symm

/-- The rebalance pass coincides with the specification's sequential
description on every state. -/
theorem rebalance_eq_specRebalance (pm : PlanManager) :
    rebalanceBuckets pm = specRebalance pm := by
  obtain ⟨hs, hb, hf⟩ := mand_sums_zero pm
  have h := placeActives_eq_specGo pm (limitOf (curriculumRules pm))
    (minSumBCOf (curriculumRules pm)) pm.rules.degree_requirements.common_rules.free_exams_credits
    (pm.plan.filter (fun p => !(p.table == "Obbligatori")))
    (pm.plan.filter (fun p => p.table == "Obbligatori")) (fun _ => 0) 0 0 hs hb hf
  simp only [rebalanceBuckets, specRebalance]
  rw [h]

/-! Concrete F94 aggregate scenario: individual minimums B=30 and C=12
are met, the B+C sum 42 is below the aggregate minimum 48, and a further
exam allowed in B and C is still accepted into table B. -/

/-- F94 requirement rules of the aggregate scenario (A 18, B 30, C 12,
aggregate B+C 48). -/
def rulesF94 : Rules :=
  { degree_requirements :=
    { common_rules := { mandatory_exams := [], free_exams_credits := 12, total_credits := 120 },
      programs := fun c =>
        if c == "F94" then
          { curriculum_rules :=
              [{ source := "A", min_credits := 18 }, { source := "B", min_credits := 30 },
               { source := "C", min_credits := 12 },
               { source := "BC", min_sumBC_credits := 48 }] }
        else
          { curriculum_rules :=
              [{ source := "1", min_credits := 12 }, { source := "2", min_credits := 54 }] } } }

/-- A 30-credit exam of table B. -/
def examB30 : Exam := { id := "b1", name := "B1", cfu := 30, rawTable := "B", availability := "" }

/-- A 12-credit exam of table C. -/
def examC12 : Exam := { id := "c1", name := "C1", cfu := 12, rawTable := "C", availability := "" }

/-- A 6-credit exam allowed in both B and C (raw order C before B, to
exercise the A-before-B-before-C priority sort). -/
def examBC6 : Exam := { id := "x1", name := "X1", cfu := 6, rawTable := "C|B", availability := "" }

/-- The scenario state after filling B to 30 and C to 12 under F94. -/
def pmC1base : PlanManager :=
  (addExam
    (addExam (setCurriculum (initialPM [examB30, examC12, examBC6] rulesF94) "F94")
      examB30 none).fst
    examC12 none).fst

/-- Claim C1: rebalanceBuckets is exactly the specification's greedy
left-to-right pass (stable order, first allowed table under its minimum
or under the aggregate B+C exception, then Facoltativi under the free
target, then Fuori Piano); and in the F94 aggregate scenario the exam
allowed in B and C, added after both individual minimums are met while
B+C is 42 of 48, is still placed in table B. -/
theorem claim_C1_rebalance :
    (∀ pm : PlanManager, rebalanceBuckets pm = specRebalance pm) ∧
    (addExam pmC1base examBC6 none).fst.plan.map (fun p => (p.id, p.table)) =
      [("b1", "B"), ("c1", "C"), ("x1", "B")] :=
  ⟨rebalance_eq_specRebalance, by decide⟩

/-! ## Claim C8: rebalance ignores the stored table of active entries -/

/-- Two entries equal except possibly in the table field, where mandatory
entries must agree exactly: the relation under which two plans are
"identical except in the table fields of entries whose table is not
Obbligatori in both". -/
def ItemRel (a b : PlanItem) : Prop :=
  SameCore a b ∧ ((a.table = "Obbligatori" ∨ b.table = "Obbligatori") → a.table = b.table)

theorem forall₂_itemRel_filters {l₁ l₂ : List PlanItem}
    (h : List.Forall₂ ItemRel l₁ l₂) :
    l₁.filter (fun p => p.table == "Obbligatori") =
      l₂.filter (fun p => p.table == "Obbligatori") ∧
    List.Forall₂ SameCore (l₁.filter (fun p => !(p.table == "Obbligatori")))
      (l₂.filter (fun p => !(p.table == "Obbligatori"))) := by
  induction h with
  | nil => exact ⟨rfl, List.Forall₂.nil⟩
  | @cons a b t₁ t₂ hab htl ih =>
    obtain ⟨hcore, htab⟩ := hab
    by_cases hma : a.table = "Obbligatori"
    · have heq : a.table = b.table := htab (Or.inl hma)
      have hmb : b.table = "Obbligatori" := by rw [← heq]; exact hma
      have hab2 : a = b := planItem_eq_of_core a b hcore heq
      refine ⟨?_, ?_⟩
      · simp only [List.filter_cons, show (a.table == "Obbligatori") = true by simp [hma],
          show (b.table == "Obbligatori") = true by simp [hmb], if_true, ih.1, hab2]
      · simp only [List.filter_cons, show (a.table == "Obbligatori") = true by simp [hma],
          show (b.table == "Obbligatori") = true by simp [hmb], Bool.not_true,
          Bool.false_eq_true, if_false]
        exact ih.2
    · have hmb : ¬ b.table = "Obbligatori" := by
        intro hb
        exact hma (by rw [htab (Or.inr hb)]; exact hb)
      refine ⟨?_, ?_⟩
      · simp only [List.filter_cons, show (a.table == "Obbligatori") = false by simpa using hma,
          show (b.table == "Obbligatori") = false by simpa using hmb, Bool.false_eq_true,
          if_false, ih.1]
      · simp only [List.filter_cons, show (a.table == "Obbligatori") = false by simpa using hma,
          show (b.table == "Obbligatori") = false by simpa using hmb, Bool.not_false, if_true]
        exact List.Forall₂.cons hcore ih.2

theorem allowedOf_congr {pm₁ pm₂ : PlanManager} (hA : pm₁.allExams = pm₂.allExams)
    (hC : pm₁.curriculum = pm₂.curriculum) {a b : PlanItem} (hab : SameCore a b) :
    allowedOf pm₁ a = allowedOf pm₂ b := by
  unfold allowedOf examOf
  rw [hab.2.2.2.2, hab.2.1, hA, hC]

theorem placeOne_congr {pm₁ pm₂ : PlanManager} (hA : pm₁.allExams = pm₂.allExams)
    (hC : pm₁.curriculum = pm₂.curriculum) (L : String → Nat) (M F : Nat)
    (acc : List PlanItem) {a b : PlanItem} (hab : SameCore a b) :
    placeOne pm₁ L M F acc a = placeOne pm₂ L M F acc b := by
  unfold placeOne
  rw [allowedOf_congr hA hC hab]
  cases hfind : (allowedOf pm₂ b).find? (placePred L M acc) with
  | some t => exact planItem_eq_of_core _ _ ⟨hab.1, hab.2.1, hab.2.2.1, hab.2.2.2.1, hab.2.2.2.2⟩ rfl
  | none =>
    by_cases hc : tableSum acc "Facoltativi" < F
    · simp only [hc, if_true]
      exact planItem_eq_of_core _ _ ⟨hab.1, hab.2.1, hab.2.2.1, hab.2.2.2.1, hab.2.2.2.2⟩ rfl
    · simp only [hc, if_false]
      exact planItem_eq_of_core _ _ ⟨hab.1, hab.2.1, hab.2.2.1, hab.2.2.2.1, hab.2.2.2.2⟩ rfl

theorem placeActives_congr {pm₁ pm₂ : PlanManager} (hA : pm₁.allExams = pm₂.allExams)
    (hC : pm₁.curriculum = pm₂.curriculum) (L : String → Nat) (M F : Nat) :
    ∀ {l₁ l₂ : List PlanItem}, List.Forall₂ SameCore l₁ l₂ → ∀ acc,
      placeActives pm₁ L M F acc l₁ = placeActives pm₂ L M F acc l₂ := by
  intro l₁ l₂ h
  induction h with
  | nil => intro acc; rfl
  | @cons a b t₁ t₂ hab htl ih =>
    intro acc
    simp only [placeActives]
    rw [placeOne_congr hA hC L M F acc hab]
    exact ih (acc ++ [placeOne pm₂ L M F acc b])

theorem curriculumRules_congr {pm₁ pm₂ : PlanManager} (hR : pm₁.rules = pm₂.rules)
    (hC : pm₁.curriculum = pm₂.curriculum) : curriculumRules pm₁ = curriculumRules pm₂ := by
  unfold curriculumRules
  rw [hR, hC]

/-- rebalanceBuckets never reads the stored table of a non-mandatory
entry: two states identical except in those fields rebalance to the same
state. -/
theorem rebalance_congr {pm₁ pm₂ : PlanManager} (hA : pm₁.allExams = pm₂.allExams)
    (hR : pm₁.rules = pm₂.rules) (hY : pm₁.year = pm₂.year)
    (hC : pm₁.curriculum = pm₂.curriculum)
    (hP : List.Forall₂ ItemRel pm₁.plan pm₂.plan) :
    rebalanceBuckets pm₁ = rebalanceBuckets pm₂ := by
  obtain ⟨hmand, hact⟩ := forall₂_itemRel_filters hP
  apply pm_eq_of_fields
  · rw [rebalance_allExams, rebalance_allExams, hA]
  · rw [rebalance_rules, rebalance_rules, hR]
  · rw [rebalance_year, rebalance_year, hY]
  · rw [rebalance_curriculum, rebalance_curriculum, hC]
  · simp only [rebalanceBuckets]
    rw [curriculumRules_congr hR hC, hR, hmand]
    exact placeActives_congr hA hC _ _ _ hact _

theorem chosen_addExam_table_ne_obb (pm : PlanManager) (exam : Exam) (tt : Option String)
    (h : ¬ tt = some "Obbligatori") :
    ¬ addExamTable pm exam tt = "Obbligatori" := by
  unfold addExamTable
  have hdef : ¬ defaultTableFor pm exam = "Obbligatori" := by
    unfold defaultTableFor
    cases hal : getAllowedTables pm.curriculum exam with
    | nil => decide
    | cons t ts =>
      intro hEq
      apply not_obb_mem_getAllowedTables (c := pm.curriculum) (e := exam)
      rw [hal, ← hEq]
      simp
  cases tt with
  | none => exact hdef
  | some s =>
    by_cases hs : (s == "") = true
    · simp only [hs, if_true]
      exact hdef
    · simp only [hs, Bool.false_eq_true, if_false]
      intro hEq
      exact h (by rw [hEq])

theorem forall₂_rel_append {R : PlanItem → PlanItem → Prop} :
    ∀ {l₁ l₂ m₁ m₂ : List PlanItem}, List.Forall₂ R l₁ l₂ → List.Forall₂ R m₁ m₂ →
      List.Forall₂ R (l₁ ++ m₁) (l₂ ++ m₂) := by
  intro l₁ l₂ m₁ m₂ h hm
  induction h with
  | nil => exact hm
  | cons hab _ ih => exact List.Forall₂.cons hab ih

theorem forall₂_itemRel_refl (l : List PlanItem) : List.Forall₂ ItemRel l l := by
  induction l with
  | nil => constructor
  | cons a t ih => exact List.Forall₂.cons ⟨sameCore_refl a, fun _ => rfl⟩ ih

/-- The targetTable argument of addExam, when it is not Obbligatori, has
no influence on the resulting state. -/
theorem addExam_table_irrelevant (pm : PlanManager) (exam : Exam) (tt₁ tt₂ : Option String)
    (h₁ : ¬ tt₁ = some "Obbligatori") (h₂ : ¬ tt₂ = some "Obbligatori") :
    addExam pm exam tt₁ = addExam pm exam tt₂ := by
  unfold addExam
  by_cases hdup : (pm.plan.any (fun p => p.examId == some exam.id)) = true
  · simp [hdup]
  · simp only [hdup, Bool.false_eq_true, if_false, Prod.mk.injEq, and_true]
    apply rebalance_congr
    · rfl
    · rfl
    · rfl
    · rfl
    simp only []
    apply forall₂_rel_append (forall₂_itemRel_refl pm.plan)
    refine List.Forall₂.cons ⟨⟨rfl, rfl, rfl, rfl, rfl⟩, ?_⟩ List.Forall₂.nil
    intro hor
    exfalso
    rcases hor with hl | hr
    · exact chosen_addExam_table_ne_obb pm exam tt₁ h₁ hl
    · exact chosen_addExam_table_ne_obb pm exam tt₂ h₂ hr

theorem forall₂_sameCore_symm {l₁ l₂ : List PlanItem}
    (h : List.Forall₂ SameCore l₁ l₂) : List.Forall₂ SameCore l₂ l₁ := by
  induction h with
  | nil => constructor
  | cons hab _ ih =>
    exact List.Forall₂.cons
      ⟨hab.1.symm, hab.2.1.symm, hab.2.2.1.symm, hab.2.2.2.1.symm, hab.2.2.2.2.symm⟩ ih

/-- A second consecutive rebalance changes nothing. -/
theorem rebalance_idem (pm : PlanManager) :
    rebalanceBuckets (rebalanceBuckets pm) = rebalanceBuckets pm := by
  obtain ⟨rest, hEq, hCore, hProp⟩ := rebalance_decomp pm
  have hmand : (rebalanceBuckets pm).plan.filter (fun p => p.table == "Obbligatori") =
      pm.plan.filter (fun p => p.table == "Obbligatori") := rebalance_mand_filter pm
  have hact : (rebalanceBuckets pm).plan.filter (fun p => !(p.table == "Obbligatori")) = rest :=
    rebalance_active_filter pm rest hEq (fun r hr => (hProp r hr).1)
  have hplace : placeActives (rebalanceBuckets pm) (limitOf (curriculumRules pm))
      (minSumBCOf (curriculumRules pm))
      pm.rules.degree_requirements.common_rules.free_exams_credits
      (pm.plan.filter (fun p => p.table == "Obbligatori")) rest =
      placeActives pm (limitOf (curriculumRules pm)) (minSumBCOf (curriculumRules pm))
        pm.rules.degree_requirements.common_rules.free_exams_credits
        (pm.plan.filter (fun p => p.table == "Obbligatori"))
        (pm.plan.filter (fun p => !(p.table == "Obbligatori"))) := by
    apply placeActives_congr
    · rfl
    · rfl
    · exact forall₂_sameCore_symm hCore
  refine pm_eq_of_fields _ _ rfl rfl rfl rfl ?_
  have hunfold : (rebalanceBuckets (rebalanceBuckets pm)).plan =
      placeActives (rebalanceBuckets pm) (limitOf (curriculumRules pm))
        (minSumBCOf (curriculumRules pm))
        pm.rules.degree_requirements.common_rules.free_exams_credits
        ((rebalanceBuckets pm).plan.filter (fun p => p.table == "Obbligatori"))
        ((rebalanceBuckets pm).plan.filter (fun p => !(p.table == "Obbligatori"))) := rfl
  rw [hunfold, hmand, hact, hplace]
  rfl

/-- Claim C8: rebalanceBuckets never reads the current table field of a
non-Mandatory entry (states identical up to those fields rebalance
identically); consequently addExam's targetTable argument, when not
Obbligatori, has no effect on the resulting state, and rebalanceBuckets
is idempotent. -/
theorem claim_C8_rebalance_table_blind (pm₁ pm₂ pm : PlanManager) (exam : Exam)
    (tt₁ tt₂ : Option String)
    (hA : pm₁.allExams = pm₂.allExams) (hR : pm₁.rules = pm₂.rules)
    (hY : pm₁.year = pm₂.year) (hC : pm₁.curriculum = pm₂.curriculum)
    (hP : List.Forall₂ ItemRel pm₁.plan pm₂.plan)
    (h₁ : ¬ tt₁ = some "Obbligatori") (h₂ : ¬ tt₂ = some "Obbligatori") :
    rebalanceBuckets pm₁ = rebalanceBuckets pm₂ ∧
    addExam pm exam tt₁ = addExam pm exam tt₂ ∧
    rebalanceBuckets (rebalanceBuckets pm) = rebalanceBuckets pm :=
  ⟨rebalance_congr hA hR hY hC hP, addExam_table_irrelevant pm exam tt₁ tt₂ h₁ h₂,
    rebalance_idem pm⟩

/-- A custom entry parked in Facoltativi. -/
def itemFac : PlanItem :=
  { id := "c-1", examId := none, name := "Ext", cfu := 6, table := "Facoltativi", isCustom := true }

/-- The same entry parked in Fuori Piano. -/
def itemFP : PlanItem :=
  { id := "c-1", examId := none, name := "Ext", cfu := 6, table := "Fuori Piano", isCustom := true }

/-- A state whose only entry is parked in Facoltativi. -/
def pmWithFac : PlanManager :=
  { allExams := [], rules := rulesPlain, year := "2025/2026", curriculum := "FBA",
    plan := [itemFac] }

/-- The same state with the entry parked in Fuori Piano instead. -/
def pmWithFP : PlanManager :=
  { allExams := [], rules := rulesPlain, year := "2025/2026", curriculum := "FBA",
    plan := [itemFP] }

/-- Witness for claim C8 on two concrete single-entry states differing
only in the active entry's stored table, and on two addExam target
tables. -/
theorem claim_C8_witness :
    rebalanceBuckets pmWithFac = rebalanceBuckets pmWithFP ∧
    addExam (initialPM [examFrom2020] rulesPlain) examFrom2020 (some "A") =
      addExam (initialPM [examFrom2020] rulesPlain) examFrom2020 none ∧
    rebalanceBuckets (rebalanceBuckets (initialPM [examFrom2020] rulesPlain)) =
      rebalanceBuckets (initialPM [examFrom2020] rulesPlain) := by
  have h := claim_C8_rebalance_table_blind pmWithFac pmWithFP
    (initialPM [examFrom2020] rulesPlain)
    examFrom2020 (some "A") none rfl rfl rfl rfl
    (List.Forall₂.cons ⟨⟨rfl, rfl, rfl, rfl, rfl⟩, by decide⟩ List.Forall₂.nil)
    (by decide) (by decide)
  exact ⟨h.1, h.2.1, h.2.2⟩

/-! ## Claim C3: validate — table-stat bookkeeping lemmas -/

/-- The current component of a report table, when the key exists. -/
def currentOf (tbs : List (String × TableStat)) (x : String) : Option Nat :=
  (statOf tbs x).map (fun s => s.current)

theorem statOf_cons (a : String) (s : TableStat) (rest : List (String × TableStat)) (x : String) :
    statOf ((a, s) :: rest) x = if (a == x) = true then some s else statOf rest x := by
  unfold statOf
  by_cases h : (a == x) = true
  · rw [List.find?_cons_of_pos _ (by simpa using h)]
    simp [h]
  · rw [List.find?_cons_of_neg _ (by simpa using h)]
    simp [h]

theorem setStat_cons (a : String) (s : TableStat) (rest : List (String × TableStat)) (t : String)
    (f : TableStat → TableStat) :
    setStat ((a, s) :: rest) t f =
      (if (a == t) = true then (a, f s) else (a, s)) :: setStat rest t f := by
  unfold setStat
  by_cases h : (a == t) = true
  · simp only [List.map_cons, h, if_true]
  · simp only [List.map_cons, h, Bool.false_eq_true, if_false]

theorem statOf_setStat (tbs : List (String × TableStat)) (t : String) (f : TableStat → TableStat)
    (x : String) :
    statOf (setStat tbs t f) x =
      if (x == t) = true then (statOf tbs x).map f else statOf tbs x := by
  induction tbs with
  | nil =>
    by_cases h : (x == t) = true <;> simp [statOf, setStat, h]
  | cons kv rest ih =>
    obtain ⟨a, s⟩ := kv
    rw [setStat_cons]
    by_cases hat : (a == t) = true
    · have hat' : a = t := by simpa using hat
      rw [if_pos hat, statOf_cons, statOf_cons]
      by_cases hax : (a == x) = true
      · have hax' : a = x := by simpa using hax
        have hxt : (x == t) = true := by rw [← hax']; exact hat
        simp [hax, hxt]
      · simp [hax, ih]
    · have hat' : ¬ a = t := by simpa using hat
      rw [if_neg (by simp [hat]), statOf_cons, statOf_cons]
      by_cases hax : (a == x) = true
      · have hax' : a = x := by simpa using hax
        have hxt : (x == t) = false := by
          rw [← hax']
          simpa using hat'
        simp [hax, hxt]
      · simp [hax, ih]

theorem statOf_setStat_isSome (tbs : List (String × TableStat)) (t : String)
    (f : TableStat → TableStat) (x : String) :
    (statOf (setStat tbs t f) x).isSome = (statOf tbs x).isSome := by
  rw [statOf_setStat]
  by_cases h : (x == t) = true
  · simp [h]
  · simp [h]

theorem currentOf_setStat_min (tbs : List (String × TableStat)) (t : String) (m : Nat)
    (x : String) :
    currentOf (setStat tbs t (fun s => { s with min := m })) x = currentOf tbs x := by
  unfold currentOf
  rw [statOf_setStat]
  by_cases h : (x == t) = true
  · simp only [h, if_true]
    cases statOf tbs x <;> rfl
  · simp [h]

theorem currentOf_setStat_bump (tbs : List (String × TableStat)) (t : String) (c : Nat)
    (x : String) :
    currentOf (setStat tbs t (fun s => { s with current := s.current + c })) x =
      if (x == t) = true then (currentOf tbs x).map (fun v => v + c) else currentOf tbs x := by
  unfold currentOf
  rw [statOf_setStat]
  by_cases h : (x == t) = true
  · simp only [h, if_true]
    cases statOf tbs x <;> rfl
  · simp [h]

/-- The per-table accumulation pass of validate succeeds as soon as every
entry's table is a key. -/
theorem tallyPlan_isSome :
    ∀ (plan : List PlanItem) (tbs : List (String × TableStat)) (total : Nat),
      (∀ item ∈ plan, (statOf tbs item.table).isSome = true) →
      ∃ r, tallyPlan tbs total plan = some r := by
  intro plan
  induction plan with
  | nil => intro tbs total _; exact ⟨(total, tbs), rfl⟩
  | cons item rest ih =>
    intro tbs total hall
    have hhead := hall item (by simp)
    cases hstat : statOf tbs item.table with
    | none => rw [hstat] at hhead; simp at hhead
    | some s =>
      obtain ⟨r, hr⟩ := ih (setStat tbs item.table (fun u => { u with current := u.current + item.cfu }))
        (if item.table == "Fuori Piano" then total else total + item.cfu)
        (fun x hx => by rw [statOf_setStat_isSome]; exact hall x (by simp [hx]))
      refine ⟨r, ?_⟩
      simp only [tallyPlan, hstat]
      exact hr

/-- What the accumulation pass computes: the grand total adds the credits
of the non-Fuori-Piano entries, and each key's current grows by that
table's credit sum. -/
theorem tallyPlan_spec :
    ∀ (plan : List PlanItem) (tbs : List (String × TableStat)) (total total' : Nat)
      (tbs' : List (String × TableStat)),
      tallyPlan tbs total plan = some (total', tbs') →
      total' = total + sumCfu (plan.filter (fun p => !(p.table == "Fuori Piano"))) ∧
      ∀ x, currentOf tbs' x = (currentOf tbs x).map (fun c => c + tableSum plan x) := by
  intro plan
  induction plan with
  | nil =>
    intro tbs total total' tbs' h
    simp only [tallyPlan, Option.some.injEq, Prod.mk.injEq] at h
    obtain ⟨h1, h2⟩ := h
    constructor
    · simp [← h1, sumCfu]
    · intro x
      rw [← h2]
      cases hc : currentOf tbs x <;> simp [tableSum, sumCfu]
  | cons item rest ih =>
    intro tbs total total' tbs' h
    simp only [tallyPlan] at h
    cases hstat : statOf tbs item.table with
    | none => rw [hstat] at h; simp at h
    | some s =>
      rw [hstat] at h
      simp only [] at h
      obtain ⟨htot, hcur⟩ := ih _ _ _ _ h
      constructor
      · rw [htot]
        by_cases hfp : (item.table == "Fuori Piano") = true
        · simp [List.filter_cons, hfp]
        · simp only [List.filter_cons, hfp, Bool.false_eq_true, if_false, Bool.not_false,
            if_true, sumCfu_cons]
          omega
      · intro x
        rw [hcur x, currentOf_setStat_bump, tableSum_cons]
        by_cases hx : (x == item.table) = true
        · have hx' : x = item.table := by simpa using hx
          have hx2 : (item.table == x) = true := by simp [hx']
          simp only [hx, if_true, hx2]
          cases currentOf tbs x
          · simp
          · simp
            omega
        · have hx2 : (item.table == x) = false := by
            have : ¬ x = item.table := by simpa using hx
            simpa using fun hEq => this hEq.symm
          simp only [hx, Bool.false_eq_true, if_false, hx2]
          cases currentOf tbs x <;> simp

/-! ## Claim C3: validate — rule pass lemmas -/

/-- The rule pass succeeds as soon as every aggregate rule finds both the
B and the C key. -/
theorem applyRules_isSome :
    ∀ (rules : List ProgRule) (tbs : List (String × TableStat)) (sp : List BCStat)
      (valid : Bool) (ms : List Msg),
      (∀ r ∈ rules, r.source = "BC" →
        (statOf tbs "B").isSome = true ∧ (statOf tbs "C").isSome = true) →
      ∃ out, applyRules tbs sp valid ms rules = some out := by
  intro rules
  induction rules with
  | nil => intro tbs sp valid ms _; exact ⟨(tbs, sp, valid, ms), rfl⟩
  | cons rule rest ih =>
    intro tbs sp valid ms hall
    by_cases hsrc : (rule.source == "BC") = true
    · have hsrc' : rule.source = "BC" := by simpa using hsrc
      obtain ⟨hB, hC⟩ := hall rule (by simp) hsrc'
      cases hsb : statOf tbs "B" with
      | none => rw [hsb] at hB; simp at hB
      | some sb =>
        cases hsc : statOf tbs "C" with
        | none => rw [hsc] at hC; simp at hC
        | some sc =>
          have hrest : ∀ r ∈ rest, r.source = "BC" →
              (statOf tbs "B").isSome = true ∧ (statOf tbs "C").isSome = true :=
            fun r hr => hall r (by simp [hr])
          by_cases hshort : sb.current + sc.current < rule.min_sumBC_credits
          · obtain ⟨out, hout⟩ := ih tbs
              (sp ++ [{ current := sb.current + sc.current, min := rule.min_sumBC_credits }])
              false (ms ++ [Msg.sumBCMissing (rule.min_sumBC_credits - (sb.current + sc.current))])
              hrest
            refine ⟨out, ?_⟩
            simp only [applyRules, hsrc, if_true, hsb, hsc, hshort, if_true]
            exact hout
          · obtain ⟨out, hout⟩ := ih tbs
              (sp ++ [{ current := sb.current + sc.current, min := rule.min_sumBC_credits }])
              valid ms hrest
            refine ⟨out, ?_⟩
            simp only [applyRules, hsrc, if_true, hsb, hsc, hshort, if_false]
            exact hout
    · cases hst : statOf tbs rule.source with
      | some st =>
        have hrest : ∀ r ∈ rest, r.source = "BC" →
            (statOf (setStat tbs rule.source (fun s => { s with min := rule.min_credits })) "B").isSome = true ∧
            (statOf (setStat tbs rule.source (fun s => { s with min := rule.min_credits })) "C").isSome = true := by
          intro r hr hbc
          rw [statOf_setStat_isSome, statOf_setStat_isSome]
          exact hall r (by simp [hr]) hbc
        by_cases hshort : st.current < rule.min_credits
        · obtain ⟨out, hout⟩ := ih _ sp false
            (ms ++ [Msg.tableMissingCfu rule.source (rule.min_credits - st.current)]) hrest
          refine ⟨out, ?_⟩
          simp only [applyRules, hsrc, Bool.false_eq_true, if_false, hst, hshort, if_true]
          exact hout
        · obtain ⟨out, hout⟩ := ih _ sp valid ms hrest
          refine ⟨out, ?_⟩
          simp only [applyRules, hsrc, Bool.false_eq_true, if_false, hst, hshort, if_false]
          exact hout
      | none =>
        obtain ⟨out, hout⟩ := ih tbs sp valid ms (fun r hr => hall r (by simp [hr]))
        refine ⟨out, ?_⟩
        simp only [applyRules, hsrc, Bool.false_eq_true, if_false, hst]
        exact hout

/-- What the rule pass guarantees: the currents are untouched, the
message list only grows, the isValid flag stays the complement of "some
message exists", every failing aggregate rule leaves its message, and
every failing per-table rule whose source is a key leaves its message. -/
theorem applyRules_spec :
    ∀ (rules : List ProgRule) (tbs : List (String × TableStat)) (sp : List BCStat)
      (valid : Bool) (ms : List Msg) (tbs' : List (String × TableStat)) (sp' : List BCStat)
      (valid' : Bool) (ms' : List Msg),
      applyRules tbs sp valid ms rules = some (tbs', sp', valid', ms') →
      (∀ x, currentOf tbs' x = currentOf tbs x) ∧
      (∃ tail, ms' = ms ++ tail) ∧
      ((valid = true ↔ ms = []) → (valid' = true ↔ ms' = [])) ∧
      (∀ rule ∈ rules, rule.source = "BC" → ∀ b c, currentOf tbs "B" = some b →
        currentOf tbs "C" = some c → b + c < rule.min_sumBC_credits →
        Msg.sumBCMissing (rule.min_sumBC_credits - (b + c)) ∈ ms') ∧
      (∀ rule ∈ rules, ¬ rule.source = "BC" → ∀ c, currentOf tbs rule.source = some c →
        c < rule.min_credits → Msg.tableMissingCfu rule.source (rule.min_credits - c) ∈ ms') := by
  intro rules
  induction rules with
  | nil =>
    intro tbs sp valid ms tbs' sp' valid' ms' h
    simp only [applyRules, Option.some.injEq, Prod.mk.injEq] at h
    obtain ⟨h1, h2, h3, h4⟩ := h
    subst h1; subst h3; subst h4
    exact ⟨fun x => rfl, ⟨[], by simp⟩, fun hv => hv, by simp, by simp⟩
  | cons rule rest ih =>
    intro tbs sp valid ms tbs' sp' valid' ms' h
    simp only [applyRules] at h
    by_cases hsrc : (rule.source == "BC") = true
    · have hsrc' : rule.source = "BC" := by simpa using hsrc
      rw [if_pos hsrc] at h
      cases hsb : statOf tbs "B" with
      | none => rw [hsb] at h; simp at h
      | some sb =>
        rw [hsb] at h
        cases hsc : statOf tbs "C" with
        | none => rw [hsc] at h; simp at h
        | some sc =>
          rw [hsc] at h
          simp only [] at h
          by_cases hshort : sb.current + sc.current < rule.min_sumBC_credits
          · rw [if_pos hshort] at h
            obtain ⟨hcur, ⟨tail, htail⟩, hval, hbc, htab⟩ := ih _ _ _ _ _ _ _ _ h
            refine ⟨hcur, ⟨Msg.sumBCMissing (rule.min_sumBC_credits - (sb.current + sc.current)) :: tail,
              by rw [htail]; simp⟩, ?_, ?_, ?_⟩
            · intro _
              apply hval
              constructor
              · intro hfalse; cases hfalse
              · intro hnil
                exact absurd hnil (by simp)
            · intro r hr hrbc b c hb hc hlt
              rcases List.mem_cons.mp hr with hEq | hmem
              · subst hEq
                have hbv : b = sb.current := by
                  unfold currentOf at hb
                  rw [hsb] at hb
                  simpa using hb.symm
                have hcv : c = sc.current := by
                  unfold currentOf at hc
                  rw [hsc] at hc
                  simpa using hc.symm
                subst hbv; subst hcv
                rw [htail]
                simp
              · exact hbc r hmem hrbc b c hb hc hlt
            · intro r hr hrbc c hc hlt
              rcases List.mem_cons.mp hr with hEq | hmem
              · subst hEq
                exact absurd hsrc' hrbc
              · exact htab r hmem hrbc c hc hlt
          · rw [if_neg hshort] at h
            obtain ⟨hcur, ⟨tail, htail⟩, hval, hbc, htab⟩ := ih _ _ _ _ _ _ _ _ h
            refine ⟨hcur, ⟨tail, htail⟩, hval, ?_, ?_⟩
            · intro r hr hrbc b c hb hc hlt
              rcases List.mem_cons.mp hr with hEq | hmem
              · subst hEq
                have hbv : b = sb.current := by
                  unfold currentOf at hb
                  rw [hsb] at hb
                  simpa using hb.symm
                have hcv : c = sc.current := by
                  unfold currentOf at hc
                  rw [hsc] at hc
                  simpa using hc.symm
                subst hbv; subst hcv
                exact absurd hlt hshort
              · exact hbc r hmem hrbc b c hb hc hlt
            · intro r hr hrbc c hc hlt
              rcases List.mem_cons.mp hr with hEq | hmem
              · subst hEq
                exact absurd hsrc' hrbc
              · exact htab r hmem hrbc c hc hlt
    · have hsrc' : ¬ rule.source = "BC" := by simpa using hsrc
      rw [if_neg (by simpa using hsrc)] at h
      cases hst : statOf tbs rule.source with
      | some st =>
        rw [hst] at h
        simp only [] at h
        by_cases hshort : st.current < rule.min_credits
        · rw [if_pos hshort] at h
          obtain ⟨hcur, ⟨tail, htail⟩, hval, hbc, htab⟩ := ih _ _ _ _ _ _ _ _ h
          have hcurstep : ∀ x, currentOf tbs' x = currentOf tbs x := by
            intro x
            rw [hcur x, currentOf_setStat_min]
          refine ⟨hcurstep, ⟨Msg.tableMissingCfu rule.source (rule.min_credits - st.current) :: tail,
            by rw [htail]; simp⟩, ?_, ?_, ?_⟩
          · intro _
            apply hval
            constructor
            · intro hfalse; cases hfalse
            · intro hnil
              exact absurd hnil (by simp)
          · intro r hr hrbc b c hb hc hlt
            rcases List.mem_cons.mp hr with hEq | hmem
            · subst hEq
              exact absurd hrbc hsrc'
            · refine hbc r hmem hrbc b c ?_ ?_ hlt
              · rw [currentOf_setStat_min]; exact hb
              · rw [currentOf_setStat_min]; exact hc
          · intro r hr hrbc c hc hlt
            rcases List.mem_cons.mp hr with hEq | hmem
            · subst hEq
              have hcv : c = st.current := by
                unfold currentOf at hc
                rw [hst] at hc
                simpa using hc.symm
              subst hcv
              rw [htail]
              simp
            · refine htab r hmem hrbc c ?_ hlt
              rw [currentOf_setStat_min]; exact hc
        · rw [if_neg hshort] at h
          obtain ⟨hcur, ⟨tail, htail⟩, hval, hbc, htab⟩ := ih _ _ _ _ _ _ _ _ h
          have hcurstep : ∀ x, currentOf tbs' x = currentOf tbs x := by
            intro x
            rw [hcur x, currentOf_setStat_min]
          refine ⟨hcurstep, ⟨tail, htail⟩, hval, ?_, ?_⟩
          · intro r hr hrbc b c hb hc hlt
            rcases List.mem_cons.mp hr with hEq | hmem
            · subst hEq
              exact absurd hrbc hsrc'
            · refine hbc r hmem hrbc b c ?_ ?_ hlt
              · rw [currentOf_setStat_min]; exact hb
              · rw [currentOf_setStat_min]; exact hc
          · intro r hr hrbc c hc hlt
            rcases List.mem_cons.mp hr with hEq | hmem
            · subst hEq
              have hcv : c = st.current := by
                unfold currentOf at hc
                rw [hst] at hc
                simpa using hc.symm
              subst hcv
              exact absurd hlt hshort
            · refine htab r hmem hrbc c ?_ hlt
              rw [currentOf_setStat_min]; exact hc
      | none =>
        rw [hst] at h
        obtain ⟨hcur, ⟨tail, htail⟩, hval, hbc, htab⟩ := ih _ _ _ _ _ _ _ _ h
        refine ⟨hcur, ⟨tail, htail⟩, hval, ?_, ?_⟩
        · intro r hr hrbc b c hb hc hlt
          rcases List.mem_cons.mp hr with hEq | hmem
          · subst hEq
            exact absurd hrbc hsrc'
          · exact hbc r hmem hrbc b c hb hc hlt
        · intro r hr hrbc c hc hlt
          rcases List.mem_cons.mp hr with hEq | hmem
          · subst hEq
            unfold currentOf at hc
            rw [hst] at hc
            simp at hc
          · exact htab r hmem hrbc c hc hlt

/-! ## Claim C3: validate — assembly -/

theorem statOf_init (l : List String) (x : String) :
    statOf (l.map (fun t => (t, ({ current := 0, min := 0 } : TableStat)))) x =
      if x ∈ l then some { current := 0, min := 0 } else none := by
  induction l with
  | nil => simp [statOf]
  | cons a rest ih =>
    rw [List.map_cons, statOf_cons]
    by_cases hax : (a == x) = true
    · have haxp : a = x := by simpa using hax
      simp [hax, haxp]
    · have hne : ¬ x = a := by
        intro hEq
        rw [hEq] at hax
        simp at hax
      simp [hax, ih, hne]

theorem bc_mem_schema_of_ne_fba {c : String} (h : ¬ c = "FBA") :
    "B" ∈ schemaOf c ∧ "C" ∈ schemaOf c := by
  unfold schemaOf
  have hb : (c == "FBA") = false := by simpa using h
  simp [hb]

theorem isSome_of_currentOf {tbs : List (String × TableStat)} {x : String} {c : Nat}
    (h : currentOf tbs x = some c) : (statOf tbs x).isSome = true := by
  unfold currentOf at h
  cases hs : statOf tbs x
  · rw [hs] at h; simp at h
  · simp

theorem finalChecks_fields (pm : PlanManager) (total : Nat)
    (tbs4 : List (String × TableStat)) (sp : List BCStat) (valid1 : Bool) (ms1 : List Msg) :
    (finalChecks pm total tbs4 sp valid1 ms1).totalCredits = total ∧
    (finalChecks pm total tbs4 sp valid1 ms1).tables = tbs4 ∧
    (finalChecks pm total tbs4 sp valid1 ms1).specialRules = sp :=
  ⟨rfl, rfl, rfl⟩

theorem finalChecks_messages (pm : PlanManager) (total : Nat)
    (tbs4 : List (String × TableStat)) (sp : List BCStat) (valid1 : Bool) (ms1 : List Msg) :
    (∃ tail, (finalChecks pm total tbs4 sp valid1 ms1).messages = ms1 ++ tail) ∧
    ((valid1 = true ↔ ms1 = []) →
      ((finalChecks pm total tbs4 sp valid1 ms1).isValid = true ↔
        (finalChecks pm total tbs4 sp valid1 ms1).messages = [])) ∧
    (total < pm.rules.degree_requirements.common_rules.total_credits →
      Msg.totalCfuStatus total pm.rules.degree_requirements.common_rules.total_credits ∈
        (finalChecks pm total tbs4 sp valid1 ms1).messages) ∧
    (∀ s, statOf tbs4 "Obbligatori" = some s → s.current < s.min →
      Msg.mandatoryIncomplete ∈ (finalChecks pm total tbs4 sp valid1 ms1).messages) := by
  unfold finalChecks
  set obb := (statOf tbs4 "Obbligatori").getD { current := 0, min := 0 } with hobb
  have hgetd : ∀ s, statOf tbs4 "Obbligatori" = some s → obb = s := by
    intro s hs
    rw [hobb, hs]
    rfl
  by_cases h1 : obb.current < obb.min
  · by_cases h2 : total < pm.rules.degree_requirements.common_rules.total_credits
    · refine ⟨⟨[Msg.mandatoryIncomplete,
        Msg.totalCfuStatus total pm.rules.degree_requirements.common_rules.total_credits], ?_⟩,
        ?_, ?_, ?_⟩
      · simp [h1, h2]
      · intro _
        simp [h1, h2]
      · intro _
        simp [h1, h2]
      · intro s _ _
        simp [h1, h2]
    · refine ⟨⟨[Msg.mandatoryIncomplete], ?_⟩, ?_, ?_, ?_⟩
      · simp [h1, h2]
      · intro _
        simp [h1, h2]
      · intro hlt
        exact absurd hlt h2
      · intro s _ _
        simp [h1, h2]
  · by_cases h2 : total < pm.rules.degree_requirements.common_rules.total_credits
    · refine ⟨⟨[Msg.totalCfuStatus total pm.rules.degree_requirements.common_rules.total_credits], ?_⟩,
        ?_, ?_, ?_⟩
      · simp [h1, h2]
      · intro _
        simp [h1, h2]
      · intro _
        simp [h1, h2]
      · intro s hs hlt
        exact absurd (by rw [hgetd s hs]; exact hlt) h1
    · refine ⟨⟨[], ?_⟩, ?_, ?_, ?_⟩
      · simp [h1, h2]
      · intro hv
        simpa [h1, h2] using hv
      · intro hlt
        exact absurd hlt h2
      · intro s hs hlt
        exact absurd (by rw [hgetd s hs]; exact hlt) h1

/-- The requirements document of the C3 counterexample: the FBA program
carries the aggregate BC rule although the FBA schema has no B or C
table. -/
def rulesBadBC : Rules :=
  { degree_requirements :=
    { common_rules := { mandatory_exams := [], free_exams_credits := 12, total_credits := 120 },
      programs := fun _ => { curriculum_rules := [{ source := "BC", min_sumBC_credits := 48 }] } } }

/-- Claim C3, as stated, is false on its totality part: with a rules
document whose FBA curriculum rules carry the aggregate BC rule, the
freshly constructed engine state (empty plan, curriculum FBA — a
reachable state) makes validate throw (the JS code dereferences
report.tables.B, which the FBA schema does not create); in the model the
thrown TypeError is the none result. -/
theorem claim_C3_counterexample :
    Reachable [] rulesBadBC (initialPM [] rulesBadBC) ∧
    validate (initialPM [] rulesBadBC) = none :=
  ⟨Reachable.init, by decide⟩

/-- Claim C3 (amended): on every reachable state whose rules attach the
aggregate BC rule only to curricula whose schema has the B and C tables
(i.e. never to FBA), validate returns a report; its totalCredits sums
exactly the non-Fuori-Piano entries, every schema table's current counts
all entries of that table (Fuori Piano included), isValid is true exactly
when no failure message was accumulated, and every failed check leaves
its message: each failing aggregate rule, each failing per-table rule
whose source is a schema table, the Mandatory-minimum check (Obbligatori
current below its reported minimum), and the global total-credit
check. -/
theorem claim_C3_amended (exams : List Exam) (rules : Rules) (pm : PlanManager)
    (h : Reachable exams rules pm)
    (hBC : pm.curriculum = "FBA" → ∀ r ∈ curriculumRules pm, ¬ r.source = "BC") :
    ∃ rep, validate pm = some rep ∧
      rep.totalCredits = sumCfu (pm.plan.filter (fun p => !(p.table == "Fuori Piano"))) ∧
      (∀ t ∈ schemaOf pm.curriculum, currentOf rep.tables t = some (tableSum pm.plan t)) ∧
      (rep.isValid = true ↔ rep.messages = []) ∧
      (∀ rule ∈ curriculumRules pm, rule.source = "BC" →
        tableSum pm.plan "B" + tableSum pm.plan "C" < rule.min_sumBC_credits →
        Msg.sumBCMissing (rule.min_sumBC_credits -
          (tableSum pm.plan "B" + tableSum pm.plan "C")) ∈ rep.messages) ∧
      (∀ rule ∈ curriculumRules pm, ¬ rule.source = "BC" → rule.source ∈ schemaOf pm.curriculum →
        tableSum pm.plan rule.source < rule.min_credits →
        Msg.tableMissingCfu rule.source (rule.min_credits - tableSum pm.plan rule.source)
          ∈ rep.messages) ∧
      (∀ s, statOf rep.tables "Obbligatori" = some s → s.current < s.min →
        Msg.mandatoryIncomplete ∈ rep.messages) ∧
      (rep.totalCredits < pm.rules.degree_requirements.common_rules.total_credits →
        Msg.totalCfuStatus rep.totalCredits pm.rules.degree_requirements.common_rules.total_credits
          ∈ rep.messages) := by
  have hschema := reachable_schema h
  obtain ⟨⟨total, tbs1⟩, htally⟩ := tallyPlan_isSome pm.plan (initTables pm) 0
    (fun item hitem => by
      unfold initTables
      rw [statOf_init]
      simp [hschema item hitem])
  obtain ⟨htotal, hcur1⟩ := tallyPlan_spec pm.plan (initTables pm) 0 total tbs1 htally
  have hcur3 : ∀ x ∈ schemaOf pm.curriculum,
      currentOf (withFixedMins pm tbs1) x = some (tableSum pm.plan x) := by
    intro x hx
    unfold withFixedMins
    rw [currentOf_setStat_min, currentOf_setStat_min, hcur1 x]
    have : currentOf (initTables pm) x = some 0 := by
      unfold currentOf initTables
      rw [statOf_init]
      simp [hx]
    rw [this]
    simp
  obtain ⟨⟨tbs4, sp, valid1, ms1⟩, happly⟩ :=
    applyRules_isSome (curriculumRules pm) (withFixedMins pm tbs1) [] true []
      (fun r hr hbc => by
        by_cases hfba : pm.curriculum = "FBA"
        · exact absurd hbc (hBC hfba r hr)
        · obtain ⟨hBmem, hCmem⟩ := bc_mem_schema_of_ne_fba hfba
          exact ⟨isSome_of_currentOf (hcur3 "B" hBmem), isSome_of_currentOf (hcur3 "C" hCmem)⟩)
  obtain ⟨hcur4, ⟨tail1, htail1⟩, hval, hbcmsg, htabmsg⟩ :=
    applyRules_spec (curriculumRules pm) (withFixedMins pm tbs1) [] true [] tbs4 sp valid1 ms1 happly
  have hval1 : valid1 = true ↔ ms1 = [] := hval (by simp)
  have hvalidate : validate pm = some (finalChecks pm total tbs4 sp valid1 ms1) := by
    have h1 : validate pm =
        match applyRules (withFixedMins pm tbs1) [] true [] (curriculumRules pm) with
        | none => none
        | some (tbs4, sp, valid1, ms1) => some (finalChecks pm total tbs4 sp valid1 ms1) := by
      unfold validate
      rw [htally]
    rw [h1, happly]
  obtain ⟨hfldT, hfldTb, hfldSp⟩ := finalChecks_fields pm total tbs4 sp valid1 ms1
  obtain ⟨⟨tail2, htail2⟩, hvalfin, htotmsg, hmandmsg⟩ :=
    finalChecks_messages pm total tbs4 sp valid1 ms1
  refine ⟨finalChecks pm total tbs4 sp valid1 ms1, hvalidate, ?_, ?_, ?_, ?_, ?_, ?_, ?_⟩
  · rw [hfldT, htotal]
    simp
  · intro t ht
    rw [hfldTb, hcur4 t]
    exact hcur3 t ht
  · exact hvalfin hval1
  · intro rule hr hrbc hshort
    have hmem : Msg.sumBCMissing (rule.min_sumBC_credits -
        (tableSum pm.plan "B" + tableSum pm.plan "C")) ∈ ms1 := by
      by_cases hfba : pm.curriculum = "FBA"
      · exact absurd hrbc (hBC hfba rule hr)
      · obtain ⟨hBmem, hCmem⟩ := bc_mem_schema_of_ne_fba hfba
        exact hbcmsg rule hr hrbc (tableSum pm.plan "B") (tableSum pm.plan "C")
          (hcur3 "B" hBmem) (hcur3 "C" hCmem) hshort
    rw [htail2]
    exact List.mem_append_left tail2 hmem
  · intro rule hr hrbc hsrcmem hshort
    have hmem : Msg.tableMissingCfu rule.source
        (rule.min_credits - tableSum pm.plan rule.source) ∈ ms1 :=
      htabmsg rule hr hrbc (tableSum pm.plan rule.source) (hcur3 rule.source hsrcmem) hshort
    rw [htail2]
    exact List.mem_append_left tail2 hmem
  · intro st hst hlt
    apply hmandmsg st ?_ hlt
    rw [← hfldTb]
    exact hst
  · rw [hfldT]
    exact htotmsg

/-- Witness for claim C3 (amended) on the freshly constructed engine with
the plain rules document (FBA rules carry no BC rule): validate yields a
report whose total is zero (empty plan) and whose isValid flag mirrors
the emptiness of its message list. -/
theorem claim_C3_amended_witness :
    ∃ rep, validate (initialPM [] rulesPlain) = some rep ∧
      rep.totalCredits = sumCfu ((initialPM [] rulesPlain).plan.filter
        (fun p => !(p.table == "Fuori Piano"))) ∧
      (rep.isValid = true ↔ rep.messages = []) := by
  obtain ⟨rep, h1, h2, _, h4, _, _, _, _⟩ := claim_C3_amended [] rulesPlain
    (initialPM [] rulesPlain) Reachable.init
    (fun _ r hr => by
      simp [curriculumRules, rulesPlain, initialPM] at hr)
  exact ⟨rep, h1, h2, h4⟩

end StudyPlan
